import Mathlib

/-!
Verification development for the placement-common core of a place-and-route
tool (src/common/place_common.cc): wirelength metrics, single-cell placement
with bounded ripup, and relative-constraint legalisation.

The C++ source is embedded shallowly: machine integers become `Int`/`Nat`,
the mutable device context becomes an explicit `PState` threaded through the
functions, recursion that the C++ expresses as loops or pointer-chasing is
expressed with explicit fuel, and fatal `log_error` calls (which never
return in the host) become `Except Fatal` results.  Observable actions
(loop entries, rng draws for jitter, ripups, unbinds, calls into the
single-cell placer) are recorded in an event list so that invariants about
"what the code ever does" can be stated.
-/

/-- A discrete device location, as in the source's `Loc` (x, y, z). -/
structure Loc where
  x : Int
  y : Int
  z : Int
deriving DecidableEq, Repr

/-- Modelled from the spec: the `PlaceStrength` enumeration is declared in a
header that is not part of the given source; the spec fixes only the total
order NONE < WEAK < STRONG < LOCKED, which we embed as 0 < 1 < 2 < 3. -/
def STRENGTH_NONE : Nat := 0

/-- Strength WEAK (see `STRENGTH_NONE` for the modelling note). -/
def STRENGTH_WEAK : Nat := 1

/-- Strength STRONG (see `STRENGTH_NONE` for the modelling note). -/
def STRENGTH_STRONG : Nat := 2

/-- Strength LOCKED (see `STRENGTH_NONE` for the modelling note). -/
def STRENGTH_LOCKED : Nat := 3

/-- The immutable netlist data of one cell.  `none` in a constraint field is
the source's `UNCONSTR` sentinel.  `constr_children` and `constr_parent`
refer to cells by name.  `portNets` lists the names of the nets attached to
the cell's connected ports. -/
structure CellData where
  name : Nat
  ctype : Nat
  constr_x : Option Int
  constr_y : Option Int
  constr_z : Option Int
  constr_abs_z : Bool
  constr_parent : Option Nat
  constr_children : List Nat
  portNets : List Nat
deriving DecidableEq, Repr

/-- One user (load) endpoint of a net: the cell it connects to (if any) and
its timing budget. -/
structure NetUser where
  cell : Option Nat
  budget : Int
deriving DecidableEq, Repr

/-- A net: driver cell (if any) plus user endpoints. -/
structure NetInfo where
  name : Nat
  driver : Option Nat
  users : List NetUser
deriving DecidableEq, Repr

/-- The device/netlist context consumed by the core.  All of these are
external collaborators in the source (`Context`); they are modelled from the
spec's interface table in section 6.  `scaledWirelen` stands for the
floating-point expression
`wirelen_t(bbox * min(5.0, 1.0 + exp(-getDelayNS(worst_slack)/5)))`,
whose real-valued factor is analysed separately as `cost_multiplier`;
floating point itself is not embedded. -/
structure Context where
  bels : List Nat
  belType : Nat → Nat
  belTypeFromId : Nat → Nat
  belLoc : Nat → Loc
  belGlobalBuf : Nat → Bool
  gridDimX : Int
  gridDimY : Int
  tileDimZ : Int → Int → Int
  validBelForCell : Nat → Nat → Bool
  timing_driven : Bool
  predictDelay : Nat → Nat → Int
  getDelayNS : Int → Int
  scaledWirelen : Int → Int → Int
  cells : List CellData
  nets : List NetInfo

/-- Observable events of a run, used to state invariants about ripups,
unbinds, jitter and placer calls. -/
inductive Ev where
  | iterStart (iters : Nat)
  | jitter (iters : Nat)
  | ripup (cell : Nat) (strength : Nat)
  | unbind (cell : Nat) (strength : Nat)
  | placeCall (requireLegality : Bool)
deriving DecidableEq, Repr

/-- The mutable placement state: both directions of the bel/cell binding map,
per-cell binding strength, the rng stream (modelled as a tape of draws), and
the event log. -/
structure PState where
  belCell : Nat → Option Nat
  cellBel : Nat → Option Nat
  cellStrength : Nat → Nat
  rngTape : List Nat
  events : List Ev

/-- Fatal outcomes: in the host, `log_error` and `NPNR_ASSERT` failures
abort the run. -/
inductive Fatal where
  | ripupLimit
  | noBelForCell
  | missingBel
  | assertConflStrength
  | assertConstraints
  | chainFail (cell : Nat)
  | rippedPlaceFail (cell : Nat)
deriving DecidableEq, Repr

/-- A default cell value for total lookups (`ctx->cells.at` would abort on a
missing name; well-formed worlds never hit this default). -/
def defaultCell : CellData :=
  ⟨0, 0, none, none, none, false, none, [], []⟩

/-- Look a cell up by name (the source's `ctx->cells.at(name)`). -/
def getCell (ctx : Context) (n : Nat) : CellData :=
  (ctx.cells.find? (fun c => c.name = n)).getD defaultCell

/-- The names of all cells of the context. -/
def cellNames (ctx : Context) : List Nat :=
  ctx.cells.map (fun c => c.name)

/-- The source's `ctx->getBelByLocation(loc)`: inverse location lookup,
`none` when no bel sits at `loc`. -/
def getBelByLocation (ctx : Context) (loc : Loc) : Option Nat :=
  ctx.bels.find? (fun b => ctx.belLoc b = loc)

/-- `ctx->bindBel(bel, cell, strength)`: record the binding in both
directions and set the cell's strength. -/
def bindBel (st : PState) (bel cname strength : Nat) : PState :=
  match st with
  | ⟨bc, cb, cs, tape, ev⟩ =>
      ⟨fun b => if b = bel then some cname else bc b,
       fun c => if c = cname then some bel else cb c,
       fun c => if c = cname then strength else cs c,
       tape, ev⟩

/-- `ctx->unbindBel(bel)`: clear the binding in both directions and reset
the cell's strength to NONE.  The bound cell and its strength at the moment
of unbinding are recorded as an `Ev.unbind` event. -/
def unbindBel (st : PState) (bel : Nat) : PState :=
  match st with
  | ⟨bc, cb, cs, tape, ev⟩ =>
      match bc bel with
      | none => ⟨bc, cb, cs, tape, ev⟩
      | some cname =>
          ⟨fun b => if b = bel then none else bc b,
           fun c => if c = cname then none else cb c,
           fun c => if c = cname then STRENGTH_NONE else cs c,
           tape, ev ++ [Ev.unbind cname (cs cname)]⟩

/-- `ctx->rng(n)`: draw the next value of the tape, reduced mod `n`; an
exhausted tape yields 0. -/
def rngDraw (st : PState) (n : Nat) : Nat × PState :=
  match st with
  | ⟨bc, cb, cs, tape, ev⟩ =>
      match tape with
      | [] => (0, ⟨bc, cb, cs, [], ev⟩)
      | v :: rest => (v % n, ⟨bc, cb, cs, rest, ev⟩)

/-- Append one event to the log. -/
def addEvent (st : PState) (e : Ev) : PState :=
  match st with
  | ⟨bc, cb, cs, tape, ev⟩ => ⟨bc, cb, cs, tape, ev ++ [e]⟩

/-! ## The increasing-diameter axis search -/

/-- The legaliser's axis iterator (`ConstraintLegaliseWorker::
IncreasingDiameterSearch`), embedded field by field. -/
structure IncreasingDiameterSearch where
  start : Int
  min : Int
  max : Int
  diameter : Int
  sign : Int
deriving DecidableEq, Repr

/-- The default constructor: `start = 0, min = 0, max = -1` (immediately
done). -/
def IncreasingDiameterSearch.mkDefault : IncreasingDiameterSearch :=
  ⟨0, 0, -1, 0, 0⟩

/-- The one-argument constructor `IncreasingDiameterSearch(x)`: emits the
fixed value `x` once. -/
def IncreasingDiameterSearch.mkFixed (x : Int) : IncreasingDiameterSearch :=
  ⟨x, x, x, 0, 0⟩

/-- The three-argument constructor `IncreasingDiameterSearch(start, min,
max)`. -/
def IncreasingDiameterSearch.mkRange (start mn mx : Int) : IncreasingDiameterSearch :=
  ⟨start, mn, mx, 0, 0⟩

/-- `done()`: the search is exhausted once the diameter exceeds
`max - min`. -/
def IncreasingDiameterSearch.done (s : IncreasingDiameterSearch) : Bool :=
  s.max - s.min < s.diameter

/-- `get()`: the current value `start + sign * diameter`, clamped into
`[min, max]`. -/
def IncreasingDiameterSearch.get (s : IncreasingDiameterSearch) : Int :=
  Min.min (Max.max (s.start + s.sign * s.diameter) s.min) s.max

/-- `next()`: advance the sign/diameter state machine exactly as the
source does. -/
def IncreasingDiameterSearch.next (s : IncreasingDiameterSearch) : IncreasingDiameterSearch :=
  if s.sign = 0 then
    { s with sign := 1, diameter := 1 }
  else if s.sign = -1 then
    { s with sign := if s.start + s.diameter > s.max then -1 else 1
             diameter := s.diameter + 1 }
  else
    if s.start + -1 * s.diameter < s.min then
      { s with sign := 1, diameter := s.diameter + 1 }
    else
      { s with sign := -1 }

/-- `reset()`: back to the initial emission state. -/
def IncreasingDiameterSearch.reset (s : IncreasingDiameterSearch) : IncreasingDiameterSearch :=
  { s with sign := 0, diameter := 0 }

/-- The sequence of values the iterator emits when `get`/`next` are repeated
until `done`, truncated by `fuel` (any fuel at least the number of `next`
steps to exhaustion gives the full sequence). -/
def IncreasingDiameterSearch.emitList (s : IncreasingDiameterSearch) : Nat → List Int
  | 0 => []
  | fuel + 1 => if s.done then [] else s.get :: s.next.emitList fuel

/-- The signed offsets `sign * diameter` at which the iterator emits: the
value emitted at each step is `start + sign * diameter` clamped into
`[min, max]`, so this list records the order in which the search walks away
from `start`. -/
def IncreasingDiameterSearch.emitOffsets (s : IncreasingDiameterSearch) : Nat → List Int
  | 0 => []
  | fuel + 1 =>
      if s.done then [] else (s.sign * s.diameter) :: s.next.emitOffsets fuel

/-- The states the iterator can actually reach: a non-negative diameter, and
a sign that is `1` or `-1` except in the freshly constructed (or reset)
state, where it is `0` with diameter `0`. -/
def IncreasingDiameterSearch.WF (s : IncreasingDiameterSearch) : Prop :=
  0 ≤ s.diameter ∧ (s.sign = 1 ∨ s.sign = -1 ∨ (s.sign = 0 ∧ s.diameter = 0))

/-! ## The COST-mode timing multiplier -/

/-- The real-valued factor `min(5.0, 1.0 + exp(-x / 5))` that COST mode
applies to the half-perimeter bounding box, as a function of
`x = getDelayNS(worst_slack)` (source line 70).  The host's `getDelayNS`
is a linear ns conversion, so `worst_slack = 0` corresponds to `x = 0`. -/
noncomputable def cost_multiplier (x : ℝ) : ℝ :=
  min 5 (1 + Real.exp (-x / 5))

/-! ## Wirelength metrics -/

/-- Metric type selector, as in the source. -/
inductive MetricType where
  | WIRELENGTH
  | COST
deriving DecidableEq, Repr

/-- `std::numeric_limits<delay_t>::max()` for the 64-bit delay type. -/
def delayMax : Int := 9223372036854775807

/-- `std::numeric_limits<wirelen_t>::max()` for the 64-bit wirelength
type. -/
def wirelenMax : Int := 9223372036854775807

/-- `get_net_metric(ctx, net, type, tns)` (source lines 28-77): half-perimeter
bounding box over the driver and placed non-global-buffer users, optionally
scaled by the timing factor in COST mode.  Returns the wirelength together
with the `tns` increment the source adds to the by-reference accumulator. -/
def get_net_metric (ctx : Context) (st : PState) (net : NetInfo) (mtype : MetricType) :
    Int × Int :=
  match net.driver with
  | none => (0, 0)
  | some dcell =>
    match st.cellBel dcell with
    | none => (0, 0)
    | some dbel =>
      if ctx.belGlobalBuf dbel then (0, 0)
      else
        let dloc := ctx.belLoc dbel
        let res := net.users.foldl
          (fun (acc : Int × Int × Int × Int × Int × Int) load =>
            let (xmin, xmax, ymin, ymax, negsl, worst) := acc
            match load.cell with
            | none => acc
            | some lcell =>
              match st.cellBel lcell with
              | none => acc
              | some lbel =>
                let (negsl1, worst1) :=
                  if ctx.timing_driven = true ∧ mtype = MetricType.COST then
                    let slack := load.budget - ctx.predictDelay net.name lcell
                    (if slack < 0 then negsl + slack else negsl, Min.min slack worst)
                  else (negsl, worst)
                if ctx.belGlobalBuf lbel then (xmin, xmax, ymin, ymax, negsl1, worst1)
                else
                  let lloc := ctx.belLoc lbel
                  (Min.min xmin lloc.x, Max.max xmax lloc.x,
                   Min.min ymin lloc.y, Max.max ymax lloc.y, negsl1, worst1))
          (dloc.x, dloc.x, dloc.y, dloc.y, 0, delayMax)
        let (xmin, xmax, ymin, ymax, negsl, worst) := res
        let wirelength :=
          if ctx.timing_driven = true ∧ mtype = MetricType.COST then
            ctx.scaledWirelen worst ((ymax - ymin) + (xmax - xmin))
          else (ymax - ymin) + (xmax - xmin)
        (wirelength, ctx.getDelayNS negsl)

/-- Insert into an ascending duplicate-free list: the iteration order of the
source's `std::set<IdString>` of net names. -/
def insertSortedNat (n : Nat) : List Nat → List Nat
  | [] => [n]
  | m :: rest =>
      if n < m then n :: m :: rest
      else if n = m then m :: rest
      else m :: insertSortedNat n rest

/-- The distinct net names on a cell's connected ports, in ascending order. -/
def cellNetsSorted (c : CellData) : List Nat :=
  c.portNets.foldl (fun acc n => insertSortedNat n acc) []

/-- Net lookup by name (`ctx->nets.at(n)`). -/
def findNet (ctx : Context) (n : Nat) : Option NetInfo :=
  ctx.nets.find? (fun m => m.name = n)

/-- `get_cell_metric` (source lines 80-93): sum of `get_net_metric` over the
distinct nets on the cell's ports; the local `tns` accumulator is
discarded. -/
def get_cell_metric (ctx : Context) (st : PState) (c : CellData) (mtype : MetricType) : Int :=
  (cellNetsSorted c).foldl
    (fun acc n =>
      match findNet ctx n with
      | some net => acc + (get_net_metric ctx st net mtype).1
      | none => acc) 0

/-- `get_cell_metric_at_bel` (source lines 95-102): evaluate the cell metric
with `cell->bel` temporarily overridden.  The source mutates the field and
restores it before returning; functionally that is evaluation in a state
whose `cellBel` is overridden for this cell only (the reverse `belCell` map
is untouched, exactly as in the source). -/
def get_cell_metric_at_bel (ctx : Context) (st : PState) (c : CellData) (bel : Nat)
    (mtype : MetricType) : Int :=
  match st with
  | ⟨bc, cb, cs, tape, ev⟩ =>
      get_cell_metric ctx
        ⟨bc, fun x => if x = c.name then some bel else cb x, cs, tape, ev⟩ c mtype

/-! ## The single-cell placer -/

/-- The candidate-selection state of `place_single_cell`'s scan over all
bels.  The source keeps `ripup_bel` and `ripup_target` in two variables that
are always assigned together; they are paired here. -/
structure ScanRes where
  best : Option Nat
  bestW : Int
  rip : Option (Nat × Nat)
  ripW : Int
deriving Repr

/-- The scan's initial state: no candidates, costs at `+∞`. -/
def scanInit : ScanRes :=
  ⟨none, wirelenMax, none, wirelenMax⟩

/-- The jitter snippet of the source's scan (lines 123-124 and 131-132): while
`iters >= 4` add `ctx->rng(25)` to the candidate's cost, recording the draw as
an `Ev.jitter` event tagged with the current `iters`. -/
def jitterCost (iters : Nat) (w0 : Int) (st : PState) : Int × PState :=
  if 4 ≤ iters then
    match rngDraw st 25 with
    | (j, st') => (w0 + Int.ofNat j, addEvent st' (Ev.jitter iters))
  else (w0, st)

/-- One bel of the scan in `place_single_cell`'s loop body (source lines
119-143): filter by type and (when legality is required) validity, cost the
candidate, add jitter while `iters >= 4`, and fold it into the best
available / best ripup candidates.  The `<=` comparisons are the source's:
later candidates of equal cost replace earlier ones. -/
def scanStep (ctx : Context) (cell : CellData) (require_legality : Bool) (iters : Nat)
    (acc : ScanRes × PState) (bel : Nat) : ScanRes × PState :=
  match acc with
  | (⟨best, bestW, rip, ripW⟩, st) =>
    if ctx.belType bel = ctx.belTypeFromId cell.ctype ∧
        (require_legality = false ∨ ctx.validBelForCell cell.name bel = true) then
      match jitterCost iters (get_cell_metric_at_bel ctx st cell bel MetricType.COST) st with
      | (w, st1) =>
        match st1 with
        | ⟨bc, cb, cs, tape, ev⟩ =>
          match bc bel with
          | none =>
              if w ≤ bestW then (⟨some bel, w, rip, ripW⟩, ⟨bc, cb, cs, tape, ev⟩)
              else (⟨best, bestW, rip, ripW⟩, ⟨bc, cb, cs, tape, ev⟩)
          | some curr =>
              if w ≤ ripW then
                if cs curr < STRENGTH_STRONG then
                  (⟨best, bestW, some (bel, curr), w⟩, ⟨bc, cb, cs, tape, ev⟩)
                else (⟨best, bestW, rip, ripW⟩, ⟨bc, cb, cs, tape, ev⟩)
              else (⟨best, bestW, rip, ripW⟩, ⟨bc, cb, cs, tape, ev⟩)
    else (⟨best, bestW, rip, ripW⟩, st)

/-- The full scan over `ctx->getBels()`. -/
def scanBels (ctx : Context) (cell : CellData) (require_legality : Bool) (iters : Nat)
    (st : PState) : ScanRes × PState :=
  ctx.bels.foldl (scanStep ctx cell require_legality iters) (scanInit, st)

/-- The top of the loop body of `place_single_cell` (source lines 115-117):
`if (cell->bel != BelId()) ctx->unbindBel(cell->bel)`. -/
def selfUnbind (st : PState) (cname : Nat) : PState :=
  match st with
  | ⟨bc, cb, cs, tape, ev⟩ =>
      match cb cname with
      | some b => unbindBel ⟨bc, cb, cs, tape, ev⟩ b
      | none => ⟨bc, cb, cs, tape, ev⟩

/-- The `while (!all_placed)` loop of `place_single_cell` (source lines
109-161), recursing on the `iters` budget.  Each entry logs `Ev.iterStart`;
a chosen ripup victim is logged as `Ev.ripup` with its strength before the
source's `unbindBel(ripup_target->bel)`.  The source checks `iters == 0`
before checking for a missing ripup candidate, so exhaustion of the budget
reports the "ripup iteration limit exceeded" error even when no victim
exists either. -/
def placeLoop (ctx : Context) : Nat → CellData → Bool → PState → Except Fatal Bool × PState
  | iters, cell, require_legality, st0 =>
    match scanBels ctx cell require_legality iters
        (selfUnbind (addEvent st0 (Ev.iterStart iters)) cell.name) with
    | (⟨best, _, rip, _⟩, st3) =>
        match best with
        | some bb => (Except.ok true, bindBel st3 bb cell.name STRENGTH_WEAK)
        | none =>
          match iters with
          | 0 => (Except.error Fatal.ripupLimit, st3)
          | i + 1 =>
            match rip with
            | some (rb, rt) =>
                match st3 with
                | ⟨bc3, cb3, cs3, tape3, ev3⟩ =>
                  let st4 : PState := ⟨bc3, cb3, cs3, tape3, ev3 ++ [Ev.ripup rt (cs3 rt)]⟩
                  let st5 :=
                    match cb3 rt with
                    | some vb => unbindBel st4 vb
                    | none => st4
                  placeLoop ctx i (getCell ctx rt) require_legality
                    (bindBel st5 rb cell.name STRENGTH_WEAK)
            | none => (Except.error Fatal.noBelForCell, st3)

/-- `place_single_cell(ctx, cell, require_legality)` (source lines 105-163):
the loop starts with `iters = 25`. -/
def place_single_cell (ctx : Context) (cell : CellData) (require_legality : Bool)
    (st : PState) : Except Fatal Bool × PState :=
  placeLoop ctx 25 cell require_legality st

/-! ## The constraint legaliser -/

/-- Look up a tentative location in the `solution` association list. -/
def lookupLoc (sol : List (Nat × Loc)) (n : Nat) : Option Loc :=
  (sol.find? (fun p => p.1 = n)).map (fun p => p.2)

/-- `solution[name] = loc`: replace an existing entry or append. -/
def setLoc (sol : List (Nat × Loc)) (n : Nat) (l : Loc) : List (Nat × Loc) :=
  match sol with
  | [] => [(n, l)]
  | p :: rest => if p.1 = n then (n, l) :: rest else p :: setLoc rest n l

/-- `usedLocations.insert(loc)` for the duplicate-free `used` set. -/
def insertLocSet (used : List Loc) (l : Loc) : List Loc :=
  if used.contains l then used else used ++ [l]

/-- `usedLocations.erase(loc)`. -/
def eraseLoc (used : List Loc) (l : Loc) : List Loc :=
  used.filter (fun x => x ≠ l)

/-- The three axis searches `valid_loc_for` builds for a child (source lines
234-253): a full-dimension search from the parent's coordinate when the axis
is UNCONSTR, otherwise the single value derived from the constraint.  Note
that the z search uses `ctx->getTileDimZ(loc.x, loc.y)` as its `max`, with
no `- 1`. -/
def childSearches (ctx : Context) (loc : Loc) (child : CellData) :
    IncreasingDiameterSearch × IncreasingDiameterSearch × IncreasingDiameterSearch :=
  (match child.constr_x with
   | none => IncreasingDiameterSearch.mkRange loc.x 0 (ctx.gridDimX - 1)
   | some cx => IncreasingDiameterSearch.mkFixed (loc.x + cx),
   match child.constr_y with
   | none => IncreasingDiameterSearch.mkRange loc.y 0 (ctx.gridDimY - 1)
   | some cy => IncreasingDiameterSearch.mkFixed (loc.y + cy),
   match child.constr_z with
   | none => IncreasingDiameterSearch.mkRange loc.z 0 (ctx.tileDimZ loc.x loc.y)
   | some cz =>
       if child.constr_abs_z then IncreasingDiameterSearch.mkFixed cz
       else IncreasingDiameterSearch.mkFixed (loc.z + cz))

/-- The three axis searches `legalise_cell` builds for a chain root (source
lines 310-323), around the root's current (or snapshotted) location.  As for
children, the UNCONSTR z search uses `getTileDimZ` with no `- 1`;
a constrained root z ignores `constr_abs_z`. -/
def rootSearches (ctx : Context) (currentLoc : Loc) (cell : CellData) :
    IncreasingDiameterSearch × IncreasingDiameterSearch × IncreasingDiameterSearch :=
  (match cell.constr_x with
   | none => IncreasingDiameterSearch.mkRange currentLoc.x 0 (ctx.gridDimX - 1)
   | some cx => IncreasingDiameterSearch.mkFixed cx,
   match cell.constr_y with
   | none => IncreasingDiameterSearch.mkRange currentLoc.y 0 (ctx.gridDimY - 1)
   | some cy => IncreasingDiameterSearch.mkFixed cy,
   match cell.constr_z with
   | none => IncreasingDiameterSearch.mkRange currentLoc.z 0
               (ctx.tileDimZ currentLoc.x currentLoc.y)
   | some cz => IncreasingDiameterSearch.mkFixed cz)

/-- Advance the nested (x outermost, z innermost) candidate iteration one
step, exactly as the loop bodies at source lines 262-270 and 332-340:
advance z; when z is done reset it and advance y; when y is done reset it
and advance x. -/
def advanceSearches (xS yS zS : IncreasingDiameterSearch) :
    IncreasingDiameterSearch × IncreasingDiameterSearch × IncreasingDiameterSearch :=
  let zS1 := zS.next
  if zS1.done then
    let yS1 := yS.next
    if yS1.done then (xS.next, yS1.reset, zS1.reset)
    else (xS, yS1, zS1.reset)
  else (xS, yS, zS1)

mutual

/-- `valid_loc_for(cell, loc, solution, used)` (source lines 220-288) and its
two inner loops, as a mutual recursion on a shared fuel that strictly
decreases at every call (any fuel exceeding the total number of loop steps
and recursive calls gives the source's behaviour; fuel exhaustion reports
failure).  The search is pure: it reads the placement but never mutates it.
Rejects a location with no bel, a type mismatch, or an incumbent of strength
at least STRONG; on child failure only the parent's `loc` is removed from
`used` (deeper stale entries persist, as in the source). -/
def valid_loc_for (ctx : Context) (st : PState) :
    Nat → CellData → Loc → List (Nat × Loc) → List Loc → Bool × List (Nat × Loc) × List Loc
  | 0, _, _, sol, used => (false, sol, used)
  | fuel + 1, cell, loc, sol, used =>
    match getBelByLocation ctx loc with
    | none => (false, sol, used)
    | some locBel =>
      if ctx.belType locBel ≠ ctx.belTypeFromId cell.ctype then (false, sol, used)
      else if (match st.belCell locBel with
               | some confl => decide (STRENGTH_STRONG ≤ st.cellStrength confl)
               | none => false) = true then (false, sol, used)
      else
        let used1 := insertLocSet used loc
        match vlf_children ctx st fuel loc cell.constr_children sol used1 with
        | (false, sol1, used2) => (false, sol1, eraseLoc used2 loc)
        | (true, sol1, used2) =>
            let used3 :=
              match lookupLoc sol1 cell.name with
              | some prev => eraseLoc used2 prev
              | none => used2
            (true, setLoc sol1 cell.name loc, used3)

def vlf_children (ctx : Context) (st : PState) :
    Nat → Loc → List Nat → List (Nat × Loc) → List Loc → Bool × List (Nat × Loc) × List Loc
  | 0, _, _, sol, used => (false, sol, used)
  | _ + 1, _, [], sol, used => (true, sol, used)
  | fuel + 1, loc, ch :: rest, sol, used =>
    let cd := getCell ctx ch
    let (xS, yS, zS) := childSearches ctx loc cd
    match vlf_search ctx st fuel xS yS zS cd sol used with
    | (false, sol1, used1) => (false, sol1, used1)
    | (true, sol1, used1) => vlf_children ctx st fuel loc rest sol1 used1

def vlf_search (ctx : Context) (st : PState) :
    Nat → IncreasingDiameterSearch → IncreasingDiameterSearch → IncreasingDiameterSearch →
      CellData → List (Nat × Loc) → List Loc → Bool × List (Nat × Loc) × List Loc
  | 0, _, _, _, _, sol, used => (false, sol, used)
  | fuel + 1, xS, yS, zS, child, sol, used =>
    if xS.done then (false, sol, used)
    else
      let cloc : Loc := ⟨xS.get, yS.get, zS.get⟩
      let (xS2, yS2, zS2) := advanceSearches xS yS zS
      if used.contains cloc then vlf_search ctx st fuel xS2 yS2 zS2 child sol used
      else
        match valid_loc_for ctx st fuel child cloc sol used with
        | (true, sol1, used1) => (true, sol1, used1)
        | (false, sol1, used1) => vlf_search ctx st fuel xS2 yS2 zS2 child sol1 used1

end

mutual

/-- `lockdown_chain(root)` (source lines 291-295): set strength LOCKED on
the whole chain, with the same fuel convention. -/
def lockdown_chain (ctx : Context) : Nat → Nat → PState → PState
  | 0, _, st => st
  | fuel + 1, cname, st =>
    match st with
    | ⟨bc, cb, cs, tape, ev⟩ =>
      lockdown_list ctx fuel (getCell ctx cname).constr_children
        ⟨bc, cb, fun c => if c = cname then STRENGTH_LOCKED else cs c, tape, ev⟩

def lockdown_list (ctx : Context) : Nat → List Nat → PState → PState
  | 0, _, st => st
  | _ + 1, [], st => st
  | fuel + 1, ch :: rest, st => lockdown_list ctx fuel rest (lockdown_chain ctx fuel ch st)

end

mutual

/-- `get_constraints_distance(ctx, cell)` (source lines 435-466): 100000 for
an unplaced cell (or a non-root whose parent is unplaced, returned without
visiting children), the per-axis penalties otherwise, plus the children's
distances. -/
def get_constraints_distance (ctx : Context) (st : PState) : Nat → Nat → Int
  | 0, _ => 0
  | fuel + 1, cname =>
    let cell := getCell ctx cname
    match st.cellBel cname with
    | none => 100000
    | some bel =>
      let loc := ctx.belLoc bel
      match cell.constr_parent with
      | none =>
          (match cell.constr_x with | some cx => |cx - loc.x| | none => 0) +
          (match cell.constr_y with | some cy => |cy - loc.y| | none => 0) +
          (match cell.constr_z with | some cz => |cz - loc.z| | none => 0) +
          distance_children ctx st fuel cell.constr_children
      | some p =>
        match st.cellBel p with
        | none => 100000
        | some pbel =>
          let ploc := ctx.belLoc pbel
          (match cell.constr_x with | some cx => |cx - (loc.x - ploc.x)| | none => 0) +
          (match cell.constr_y with | some cy => |cy - (loc.y - ploc.y)| | none => 0) +
          (match cell.constr_z with
           | some cz => if cell.constr_abs_z then |cz - loc.z| else |cz - (loc.z - ploc.z)|
           | none => 0) +
          distance_children ctx st fuel cell.constr_children

def distance_children (ctx : Context) (st : PState) : Nat → List Nat → Int
  | 0, _ => 0
  | _ + 1, [] => 0
  | fuel + 1, ch :: rest =>
    get_constraints_distance ctx st fuel ch + distance_children ctx st fuel rest

end

/-- `constraints_satisfied(cell)` (source line 379). -/
def constraints_satisfied (ctx : Context) (st : PState) (fuel : Nat) (cname : Nat) : Prop :=
  get_constraints_distance ctx st fuel cname = 0

/-- Step 1 of `legalise_cell`'s success path (source lines 345-349): unbind
every solution cell that currently holds a bel. -/
def unbindSolution (sol : List (Nat × Loc)) (st : PState) : PState :=
  sol.foldl
    (fun s p =>
      match s with
      | ⟨bc, cb, cs, tape, ev⟩ =>
        match cb p.1 with
        | some b => unbindBel ⟨bc, cb, cs, tape, ev⟩ b
        | none => ⟨bc, cb, cs, tape, ev⟩) st

/-- Step 2 of `legalise_cell`'s success path (source lines 350-368): bind
each solution cell at its target bel with strength LOCKED; a conflicting
incumbent must have strength below STRONG (`NPNR_ASSERT`), is unbound
(recorded as `Ev.ripup`) and appended to `rippedCells`. -/
def legalise_apply (ctx : Context) :
    List (Nat × Loc) → PState → List Nat → Except Fatal Unit × PState × List Nat
  | [], st, ripped => (Except.ok (), st, ripped)
  | (cname, loc) :: rest, st, ripped =>
    match getBelByLocation ctx loc with
    | none => (Except.error Fatal.missingBel, st, ripped)
    | some target =>
      match st with
      | ⟨bc, cb, cs, tape, ev⟩ =>
        match bc target with
        | some confl =>
            if STRENGTH_STRONG ≤ cs confl then
              (Except.error Fatal.assertConflStrength, ⟨bc, cb, cs, tape, ev⟩, ripped)
            else
              let st2 := unbindBel
                ⟨bc, cb, cs, tape, ev ++ [Ev.ripup confl (cs confl)]⟩ target
              legalise_apply ctx rest (bindBel st2 target cname STRENGTH_LOCKED)
                (ripped ++ [confl])
        | none =>
            legalise_apply ctx rest
              (bindBel ⟨bc, cb, cs, tape, ev⟩ target cname STRENGTH_LOCKED) ripped

/-- The `while (!xRootSearch.done())` loop of `legalise_cell` (source lines
324-372): try each candidate root location; a fresh `solution`/`used` pair
per candidate; on the first success unbind the whole solution, rebind it
LOCKED, assert the chain is now satisfied, and return true; return false
when the search exhausts. -/
def legalise_rootLoop (ctx : Context) (fuel : Nat) :
    Nat → IncreasingDiameterSearch → IncreasingDiameterSearch → IncreasingDiameterSearch →
      CellData → PState → List Nat → Except Fatal Bool × PState × List Nat
  | 0, _, _, _, _, st, ripped => (Except.ok false, st, ripped)
  | lf + 1, xS, yS, zS, cell, st, ripped =>
    if xS.done then (Except.ok false, st, ripped)
    else
      let rootLoc : Loc := ⟨xS.get, yS.get, zS.get⟩
      let (xS2, yS2, zS2) := advanceSearches xS yS zS
      match valid_loc_for ctx st fuel cell rootLoc [] [] with
      | (true, sol, _) =>
          let st1 := unbindSolution sol st
          match legalise_apply ctx sol st1 ripped with
          | (Except.ok _, st2, ripped2) =>
              if get_constraints_distance ctx st2 fuel cell.name = 0 then
                (Except.ok true, st2, ripped2)
              else (Except.error Fatal.assertConstraints, st2, ripped2)
          | (Except.error e, st2, ripped2) => (Except.error e, st2, ripped2)
      | (false, _, _) => legalise_rootLoop ctx fuel lf xS2 yS2 zS2 cell st ripped

/-- `legalise_cell(cell)` (source lines 298-376): skip non-roots; lock down
an already-satisfied chain; otherwise search candidate root locations
(starting from the current location, or the snapshotted one when the root
lost its bel). -/
def legalise_cell (ctx : Context) (fuel : Nat) (oldLocs : List (Nat × Loc))
    (cell : CellData) (st : PState) (ripped : List Nat) :
    Except Fatal Bool × PState × List Nat :=
  if cell.constr_parent.isSome then (Except.ok true, st, ripped)
  else if get_constraints_distance ctx st fuel cell.name = 0 then
    (Except.ok true, lockdown_chain ctx fuel cell.name st, ripped)
  else
    let currentLoc :=
      match st.cellBel cell.name with
      | some b => ctx.belLoc b
      | none => (lookupLoc oldLocs cell.name).getD ⟨0, 0, 0⟩
    let (xS, yS, zS) := rootSearches ctx currentLoc cell
    legalise_rootLoop ctx fuel fuel xS yS zS cell st ripped

/-- The per-cell loop of `legalise_constraints` (source lines 410-418): any
`legalise_cell` failure is a fatal `log_error`. -/
def legalise_cells (ctx : Context) (fuel : Nat) (oldLocs : List (Nat × Loc)) :
    List CellData → PState → List Nat → Except Fatal Unit × PState × List Nat
  | [], st, ripped => (Except.ok (), st, ripped)
  | c :: rest, st, ripped =>
    match legalise_cell ctx fuel oldLocs c st ripped with
    | (Except.ok true, st1, ripped1) => legalise_cells ctx fuel oldLocs rest st1 ripped1
    | (Except.ok false, st1, ripped1) => (Except.error (Fatal.chainFail c.name), st1, ripped1)
    | (Except.error e, st1, ripped1) => (Except.error e, st1, ripped1)

/-- The flag the source passes as `require_legality` when re-placing ripped
cells (source line 420): the strength constant `STRENGTH_WEAK`, implicitly
converted to `bool`. -/
def requireLegalityArg : Bool :=
  decide (STRENGTH_WEAK ≠ 0)

/-- The ripped-cell loop of `legalise_constraints` (source lines 419-425):
each entry is re-placed through `place_single_cell`; each call is recorded
as `Ev.placeCall` with its `require_legality` argument; failure is a fatal
`log_error`. -/
def place_ripped (ctx : Context) : List Nat → PState → Except Fatal Unit × PState
  | [], st => (Except.ok (), st)
  | cname :: rest, st =>
    let st1 := addEvent st (Ev.placeCall requireLegalityArg)
    match place_single_cell ctx (getCell ctx cname) requireLegalityArg st1 with
    | (Except.ok true, st2) => place_ripped ctx rest st2
    | (Except.ok false, st2) => (Except.error (Fatal.rippedPlaceFail cname), st2)
    | (Except.error e, st2) => (Except.error e, st2)

/-- The `oldLocations` snapshot taken at the top of `legalise_constraints`
(source lines 407-409).  The snapshot is meaningful only for placed cells,
as in the source, where `getBelLocation` on an invalid bel would abort. -/
def snapshotLocs (ctx : Context) (st : PState) : List (Nat × Loc) :=
  ctx.cells.map
    (fun c => (c.name,
      match st.cellBel c.name with
      | some b => ctx.belLoc b
      | none => (⟨0, 0, 0⟩ : Loc)))

/-- `legalise_constraints()` (source lines 405-427): snapshot every cell's
location, legalise every cell in the (sorted) cell list, then re-place the
ripped cells. -/
def legalise_constraints (ctx : Context) (fuel : Nat) (st : PState) :
    Except Fatal Bool × PState :=
  match legalise_cells ctx fuel (snapshotLocs ctx st) ctx.cells st [] with
  | (Except.ok _, st1, ripped) =>
      match place_ripped ctx ripped st1 with
      | (Except.ok _, st2) => (Except.ok true, st2)
      | (Except.error e, st2) => (Except.error e, st2)
  | (Except.error e, st1, _) => (Except.error e, st1)

/-- `legalise_relative_constraints(ctx)` (source lines 430-432). -/
def legalise_relative_constraints (ctx : Context) (fuel : Nat) (st : PState) :
    Except Fatal Bool × PState :=
  legalise_constraints ctx fuel st

/-! ## Event predicates and placement consistency -/

/-- Every ripup event displaces a victim of strength below STRONG. -/
def ripupOK (e : Ev) : Bool :=
  match e with
  | Ev.ripup _ s => decide (s < STRENGTH_STRONG)
  | _ => true

/-- Every unbind event hits a cell of strength below `k`. -/
def unbindBelow (k : Nat) (e : Ev) : Bool :=
  match e with
  | Ev.unbind _ s => decide (s < k)
  | _ => true

/-- Every jitter draw happens while `iters >= 4`. -/
def jitterOK (e : Ev) : Bool :=
  match e with
  | Ev.jitter i => decide (4 ≤ i)
  | _ => true

/-- Every recorded `place_single_cell` call passes `require_legality =
true`. -/
def placeFlagOK (e : Ev) : Bool :=
  match e with
  | Ev.placeCall b => b
  | _ => true

/-- Recognise outer-loop entries of `place_single_cell`. -/
def isIterStart (e : Ev) : Bool :=
  match e with
  | Ev.iterStart _ => true
  | _ => false

/-- The number of outer-loop entries recorded in an event log. -/
def countIter (l : List Ev) : Nat :=
  (l.filter isIterStart).length

/-- True unless the result is the boolean `false` (the value
`place_single_cell` never produces). -/
def resultTrue (r : Except Fatal Bool) : Bool :=
  match r with
  | Except.ok b => b
  | Except.error _ => true

/-- A well-formed placement: over the context's bels and cells the two
direction maps agree, bound cells are cells of the netlist, and bound bels
are bels of the device. -/
def ConsistentB (ctx : Context) (st : PState) : Bool :=
  (ctx.bels.all fun b =>
    match st.belCell b with
    | some c => decide (st.cellBel c = some b) && (cellNames ctx).contains c
    | none => true) &&
  (ctx.cells.all fun cd =>
    match st.cellBel cd.name with
    | some b => decide (st.belCell b = some cd.name) && ctx.bels.contains b
    | none => true)

/-- The invariant `scanBels` maintains: the scan does not touch the
placement, a proposed ripup pair `(bel, victim)` names an occupied bel of
the device whose incumbent is below STRONG, and a proposed best bel is an
available bel of the device. -/
def ScanInv (ctx : Context) (st0 : PState) (x : ScanRes × PState) : Prop :=
  x.2.belCell = st0.belCell ∧ x.2.cellBel = st0.cellBel ∧
  x.2.cellStrength = st0.cellStrength ∧
  (∀ rb rt, x.1.rip = some (rb, rt) →
    st0.cellStrength rt < STRENGTH_STRONG ∧ st0.belCell rb = some rt ∧ rb ∈ ctx.bels) ∧
  (∀ bb, x.1.best = some bb → st0.belCell bb = none ∧ bb ∈ ctx.bels)

/-! ## Concrete worlds -/

/-- A 5-bel, one-row device: bel `i` at `(i, 0, 0)`, all of type 0, timing
off, no nets.  Cells: cell 0 is a singleton root constrained to `x = 0`;
cell 2 is a root fixed at `x = 2` with one child, cell 1, constrained at
relative offset `(+1, +0, +0)`. -/
def ctxEx : Context :=
  { bels := [0, 1, 2, 3, 4]
    belType := fun _ => 0
    belTypeFromId := fun t => t
    belLoc := fun b => ⟨Int.ofNat b, 0, 0⟩
    belGlobalBuf := fun _ => false
    gridDimX := 5
    gridDimY := 1
    tileDimZ := fun _ _ => 1
    validBelForCell := fun _ _ => true
    timing_driven := false
    predictDelay := fun _ _ => 0
    getDelayNS := fun d => d
    scaledWirelen := fun _ w => w
    cells :=
      [ ⟨0, 0, some 0, none, none, false, none, [], []⟩,
        ⟨1, 0, some 1, some 0, some 0, false, some 2, [], []⟩,
        ⟨2, 0, some 2, none, none, false, none, [1], []⟩ ]
    nets := [] }

/-- Initial placement for `ctxEx`: cell 0 on bel 1, cell 1 on bel 0, cell 2
on bel 2, all WEAK. -/
def stEx : PState :=
  { belCell := fun b => if b = 1 then some 0 else if b = 0 then some 1 else
      if b = 2 then some 2 else none
    cellBel := fun c => if c = 0 then some 1 else if c = 1 then some 0 else
      if c = 2 then some 2 else none
    cellStrength := fun c => if c < 3 then STRENGTH_WEAK else STRENGTH_NONE
    rngTape := []
    events := [] }

/-- The final state of running the legaliser on `ctxEx` from `stEx`. -/
def exRun : Except Fatal Bool × PState :=
  legalise_constraints ctxEx 60 stEx

/-- A one-bel device holding cell 1 (WEAK) while cell 0 is unplaced: placing
cell 0 makes the two cells displace each other forever, exhausting the
ripup budget. -/
def ctxSwap : Context :=
  { bels := [0]
    belType := fun _ => 0
    belTypeFromId := fun t => t
    belLoc := fun _ => ⟨0, 0, 0⟩
    belGlobalBuf := fun _ => false
    gridDimX := 1
    gridDimY := 1
    tileDimZ := fun _ _ => 1
    validBelForCell := fun _ _ => true
    timing_driven := false
    predictDelay := fun _ _ => 0
    getDelayNS := fun d => d
    scaledWirelen := fun _ w => w
    cells :=
      [ ⟨0, 0, none, none, none, false, none, [], []⟩,
        ⟨1, 0, none, none, none, false, none, [], []⟩ ]
    nets := [] }

/-- Initial placement for `ctxSwap`: cell 1 on bel 0, WEAK; cell 0
unplaced. -/
def stSwap : PState :=
  { belCell := fun b => if b = 0 then some 1 else none
    cellBel := fun c => if c = 1 then some 0 else none
    cellStrength := fun c => if c = 1 then STRENGTH_WEAK else STRENGTH_NONE
    rngTape := []
    events := [] }

/-- The run of `place_single_cell` on the swap world. -/
def swapRun : Except Fatal Bool × PState :=
  place_single_cell ctxSwap (getCell ctxSwap 0) true stSwap


/-- A one-bel device whose single tile has depth 2, for examining the
z-axis searches. -/
def ctxC3 : Context :=
  { bels := [0]
    belType := fun _ => 0
    belTypeFromId := fun t => t
    belLoc := fun _ => ⟨0, 0, 0⟩
    belGlobalBuf := fun _ => false
    gridDimX := 1
    gridDimY := 1
    tileDimZ := fun _ _ => 2
    validBelForCell := fun _ _ => true
    timing_driven := false
    predictDelay := fun _ _ => 0
    getDelayNS := fun d => d
    scaledWirelen := fun _ w => w
    cells := [⟨1, 0, some 0, some 0, none, false, some 0, [], []⟩]
    nets := [] }

/-- A child cell with fixed x and y offsets and UNCONSTR z. -/
def childC3 : CellData :=
  ⟨1, 0, some 0, some 0, none, false, some 0, [], []⟩

/-! ## Claim theorems -/

/-- Claim C2, counterexample: the claim says the COST-mode factor
`min(5.0, 1.0 + exp(-getDelayNS(worst_slack)/5))` equals 1.0 exactly when
the worst slack is 0; but at `x = getDelayNS(0) = 0` the factor is
`min(5, 1 + exp 0) = 2`, not 1. -/
theorem C2_counterexample : cost_multiplier 0 = 2 ∧ (2 : ℝ) ≠ 1 := by
  constructor
  · unfold cost_multiplier
    rw [neg_zero, zero_div, Real.exp_zero]
    norm_num
  · norm_num

/-- Claim C2 (corrected): the COST-mode factor always lies in the interval
`[1.0, 5.0]` — in fact strictly above 1 — and at worst slack 0 it equals 2;
it never equals 1.0. -/
theorem C2_amended :
    (∀ x : ℝ, 1 < cost_multiplier x ∧ cost_multiplier x ≤ 5) ∧ cost_multiplier 0 = 2 := by
  constructor
  · intro x
    refine ⟨lt_min (by norm_num) ?_, min_le_left _ _⟩
    have h := Real.exp_pos (-x / 5)
    linarith
  · unfold cost_multiplier
    rw [neg_zero, zero_div, Real.exp_zero]
    norm_num

/-- The `next` step never changes the `min` bound. -/
theorem IncreasingDiameterSearch.next_min (s : IncreasingDiameterSearch) :
    s.next.min = s.min := by
  unfold IncreasingDiameterSearch.next
  split_ifs <;> rfl

/-- The `next` step never changes the `max` bound. -/
theorem IncreasingDiameterSearch.next_max (s : IncreasingDiameterSearch) :
    s.next.max = s.max := by
  unfold IncreasingDiameterSearch.next
  split_ifs <;> rfl

/-- The `next` step never changes `start`. -/
theorem IncreasingDiameterSearch.next_start (s : IncreasingDiameterSearch) :
    s.next.start = s.start := by
  unfold IncreasingDiameterSearch.next
  split_ifs <;> rfl

/-- The `next` step preserves well-formedness of the iterator state. -/
theorem IncreasingDiameterSearch.next_WF {s : IncreasingDiameterSearch} (h : s.WF) :
    s.next.WF := by
  obtain ⟨h1, h2⟩ := h
  unfold IncreasingDiameterSearch.WF IncreasingDiameterSearch.next
  split_ifs <;> dsimp only <;> omega

/-- From a well-formed state, `next` never decreases the diameter, and the
successor state always has a definite sign. -/
theorem IncreasingDiameterSearch.next_sd {s : IncreasingDiameterSearch} (h : s.WF) :
    s.diameter ≤ s.next.diameter ∧ (s.next.sign = 1 ∨ s.next.sign = -1) := by
  obtain ⟨h1, h2⟩ := h
  unfold IncreasingDiameterSearch.next
  split_ifs <;> dsimp only <;> omega

/-- `|sg * d| ≤ d` for a well-formed sign/diameter pair. -/
theorem abs_sign_mul_le {sg d : Int} (h1 : 0 ≤ d)
    (h2 : sg = 1 ∨ sg = -1 ∨ (sg = 0 ∧ d = 0)) : |sg * d| ≤ d := by
  rcases h2 with h | h | ⟨h, _⟩ <;> subst h
  · rw [one_mul, abs_of_nonneg h1]
  · rw [neg_one_mul, abs_neg, abs_of_nonneg h1]
  · simpa using h1

/-- The magnitude of the emission offset `sign * diameter` never decreases
across a `next` step. -/
theorem IncreasingDiameterSearch.offset_step {s : IncreasingDiameterSearch} (h : s.WF) :
    |s.sign * s.diameter| ≤ |s.next.sign * s.next.diameter| := by
  have hsd := IncreasingDiameterSearch.next_sd h
  obtain ⟨h1, h2⟩ := h
  have lhs_le : |s.sign * s.diameter| ≤ s.diameter := abs_sign_mul_le h1 h2
  have rhs_ge : s.diameter ≤ |s.next.sign * s.next.diameter| := by
    rcases hsd.2 with h | h <;> rw [h]
    · rw [one_mul, abs_of_nonneg (le_trans h1 hsd.1)]
      exact hsd.1
    · rw [neg_one_mul, abs_neg, abs_of_nonneg (le_trans h1 hsd.1)]
      exact hsd.1
  exact le_trans lhs_le rhs_ge

/-- Every offset emitted from a well-formed state has magnitude at least the
state's current offset magnitude. -/
theorem emitOffsets_lb : ∀ (fuel : Nat) (s : IncreasingDiameterSearch), s.WF →
    ∀ o ∈ s.emitOffsets fuel, |s.sign * s.diameter| ≤ |o| := by
  intro fuel
  induction fuel with
  | zero =>
      intro s _ o ho
      simp [IncreasingDiameterSearch.emitOffsets] at ho
  | succ n ih =>
      intro s hwf o ho
      simp only [IncreasingDiameterSearch.emitOffsets] at ho
      split at ho
      · simp at ho
      · rcases List.mem_cons.mp ho with rfl | ho
        · exact le_refl _
        · exact le_trans (IncreasingDiameterSearch.offset_step hwf)
            (ih s.next (IncreasingDiameterSearch.next_WF hwf) o ho)

/-- The offsets are emitted in order of non-decreasing magnitude: the search
walks away from `start` monotonically. -/
theorem emitOffsets_chain : ∀ (fuel : Nat) (s : IncreasingDiameterSearch), s.WF →
    List.Chain' (fun a b => |a| ≤ |b|) (s.emitOffsets fuel) := by
  intro fuel
  induction fuel with
  | zero =>
      intro s _
      simp [IncreasingDiameterSearch.emitOffsets]
  | succ n ih =>
      intro s hwf
      simp only [IncreasingDiameterSearch.emitOffsets]
      split_ifs with h
      · exact List.chain'_nil
      · rw [List.chain'_cons']
        refine ⟨fun b hb => ?_, ih s.next (IncreasingDiameterSearch.next_WF hwf)⟩
        have hbmem : b ∈ s.next.emitOffsets n := List.mem_of_mem_head? hb
        exact le_trans (IncreasingDiameterSearch.offset_step hwf)
          (emitOffsets_lb n s.next (IncreasingDiameterSearch.next_WF hwf) b hbmem)

/-- Every emitted offset has magnitude at most `max - min`: emission stops
once the diameter exceeds that span. -/
theorem emitOffsets_le : ∀ (fuel : Nat) (s : IncreasingDiameterSearch), s.WF →
    ∀ o ∈ s.emitOffsets fuel, |o| ≤ s.max - s.min := by
  intro fuel
  induction fuel with
  | zero =>
      intro s _ o ho
      simp [IncreasingDiameterSearch.emitOffsets] at ho
  | succ n ih =>
      intro s hwf o ho
      simp only [IncreasingDiameterSearch.emitOffsets] at ho
      split at ho
      · simp at ho
      · rcases List.mem_cons.mp ho with rfl | ho
        · rename_i hdone
          have hd : s.diameter ≤ s.max - s.min := by
            simp only [IncreasingDiameterSearch.done, decide_eq_true_eq] at hdone
            omega
          exact le_trans (abs_sign_mul_le hwf.1 hwf.2) hd
        · have := ih s.next (IncreasingDiameterSearch.next_WF hwf) o ho
          rwa [IncreasingDiameterSearch.next_min, IncreasingDiameterSearch.next_max] at this

/-- The emitted values are exactly the successive offsets applied to `start`
and clamped into `[min, max]`. -/
theorem emitList_eq_map_offsets : ∀ (fuel : Nat) (s : IncreasingDiameterSearch),
    s.emitList fuel = (s.emitOffsets fuel).map
      (fun o => Min.min (Max.max (s.start + o) s.min) s.max) := by
  intro fuel
  induction fuel with
  | zero =>
      intro s
      rfl
  | succ n ih =>
      intro s
      simp only [IncreasingDiameterSearch.emitList, IncreasingDiameterSearch.emitOffsets]
      split_ifs with h
      · rfl
      · rw [List.map_cons, ih s.next,
          IncreasingDiameterSearch.next_start,
          IncreasingDiameterSearch.next_min, IncreasingDiameterSearch.next_max]
        rfl

/-- The freshly constructed range search is well-formed. -/
theorem mkRange_WF (start mn mx : Int) :
    (IncreasingDiameterSearch.mkRange start mn mx).WF :=
  ⟨le_refl 0, Or.inr (Or.inr ⟨rfl, rfl⟩)⟩

/-- Every value the iterator emits is clamped into `[min, max]` (whenever
that interval is nonempty). -/
theorem emitList_bounds : ∀ (fuel : Nat) (s : IncreasingDiameterSearch),
    s.min ≤ s.max → ∀ v ∈ s.emitList fuel, s.min ≤ v ∧ v ≤ s.max := by
  intro fuel
  induction fuel with
  | zero =>
      intro s _ v hv
      simp [IncreasingDiameterSearch.emitList] at hv
  | succ n ih =>
      intro s h v hv
      simp only [IncreasingDiameterSearch.emitList] at hv
      split at hv
      · simp at hv
      · rcases List.mem_cons.mp hv with rfl | hv
        · exact ⟨le_min (le_max_right _ _) h, min_le_right _ _⟩
        · have h2 : s.next.min ≤ s.next.max := by
            rw [IncreasingDiameterSearch.next_min, IncreasingDiameterSearch.next_max]
            exact h
          have := ih s.next h2 v hv
          rwa [IncreasingDiameterSearch.next_min, IncreasingDiameterSearch.next_max] at this

/-- Claim C4, counterexample: for the search constructed with
`(start, min, max) = (1, 0, 2)` (so `min ≤ start ≤ max`), the emitted
sequence is `1, 2, 0, 2` — the value 2 is emitted twice, refuting the
claim that the sequence contains no duplicate values. -/
theorem C4_counterexample :
    (0 : Int) ≤ 1 ∧ (1 : Int) ≤ 2 ∧
    (IncreasingDiameterSearch.mkRange 1 0 2).emitList 1000 = [1, 2, 0, 2] ∧
    ¬ ([1, 2, 0, 2] : List Int).Nodup := by
  refine ⟨by norm_num, by norm_num, by decide, by decide⟩

/-- Claim C4 (corrected): for `min ≤ start ≤ max` every value emitted until
`done()` lies within `[min, max]`; the emitted values are exactly the
successive offsets `o = sign * diameter` applied to `start` and clamped
into `[min, max]`, and those offsets come in order of non-decreasing
magnitude `|o|` (distance from `start`); emission ends once the offset
magnitude exceeds `max - min`; but clamping at the interval edges can emit
the same value more than once (see the counterexample), so the sequence is
not duplicate free. -/
theorem C4_amended : ∀ (start mn mx : Int) (fuel : Nat),
    mn ≤ start → start ≤ mx →
    (∀ v ∈ (IncreasingDiameterSearch.mkRange start mn mx).emitList fuel,
       mn ≤ v ∧ v ≤ mx) ∧
    (IncreasingDiameterSearch.mkRange start mn mx).emitList fuel =
      ((IncreasingDiameterSearch.mkRange start mn mx).emitOffsets fuel).map
        (fun o => Min.min (Max.max (start + o) mn) mx) ∧
    List.Chain' (fun a b => |a| ≤ |b|)
      ((IncreasingDiameterSearch.mkRange start mn mx).emitOffsets fuel) ∧
    (∀ o ∈ (IncreasingDiameterSearch.mkRange start mn mx).emitOffsets fuel,
       |o| ≤ mx - mn) := by
  intro start mn mx fuel h1 h2
  exact ⟨fun v hv => emitList_bounds fuel _ (le_trans h1 h2) v hv,
    emitList_eq_map_offsets fuel _,
    emitOffsets_chain fuel _ (mkRange_WF start mn mx),
    fun o ho => emitOffsets_le fuel _ (mkRange_WF start mn mx) o ho⟩

/-- Witness for C4: at `(start, min, max) = (1, 0, 2)` the hypotheses hold;
the emitted value 2 is bounded into `[0, 2]`, and the offset trace
(concretely `0, 1, -1, 2`) is non-decreasing in magnitude. -/
theorem C4_witness :
    (0 : Int) ≤ 1 ∧ (1 : Int) ≤ 2 ∧
    (2 ∈ (IncreasingDiameterSearch.mkRange 1 0 2).emitList 10 ∧
      (0 : Int) ≤ 2 ∧ (2 : Int) ≤ 2) ∧
    List.Chain' (fun a b => |a| ≤ |b|)
      ((IncreasingDiameterSearch.mkRange 1 0 2).emitOffsets 10) :=
  ⟨by norm_num, by norm_num,
   ⟨by decide, (C4_amended 1 0 2 10 (by norm_num) (by norm_num)).1 2 (by decide)⟩,
   (C4_amended 1 0 2 10 (by norm_num) (by norm_num)).2.2.1⟩

/-- Claim C3, counterexample: for an UNCONSTR z child below a parent at
`(0,0,0)` in a device whose tile depth is 2, the z search the code builds is
`IncreasingDiameterSearch(loc.z, 0, getTileDimZ(x,y))` and emits `0, 1, 2`:
the value `2 = getTileDimZ(0,0)` lies outside the claimed range
`0 .. getTileDimZ(x,y) - 1`. -/
theorem C3_counterexample :
    (childSearches ctxC3 ⟨0, 0, 0⟩ childC3).2.2 =
      IncreasingDiameterSearch.mkRange 0 0 (ctxC3.tileDimZ 0 0) ∧
    ((childSearches ctxC3 ⟨0, 0, 0⟩ childC3).2.2).emitList 100 = [0, 1, 2] ∧
    ¬ ((2 : Int) ≤ ctxC3.tileDimZ 0 0 - 1) := by
  refine ⟨rfl, by decide, by decide⟩

/-- Claim C3 (corrected): in `valid_loc_for` and in the root search of
`legalise_cell`, an UNCONSTR x or y axis is searched with bounds
`0 .. dim - 1`, starting from the parent's (resp. current) coordinate, but
an UNCONSTR z axis is searched with bounds `0 .. getTileDimZ(x, y)` — the
upper bound is the tile depth itself, not depth minus one. -/
theorem C3_amended : ∀ (ctx : Context) (loc cur : Loc) (child cell : CellData),
    (child.constr_x = none →
      (childSearches ctx loc child).1 =
        IncreasingDiameterSearch.mkRange loc.x 0 (ctx.gridDimX - 1)) ∧
    (child.constr_y = none →
      (childSearches ctx loc child).2.1 =
        IncreasingDiameterSearch.mkRange loc.y 0 (ctx.gridDimY - 1)) ∧
    (child.constr_z = none →
      (childSearches ctx loc child).2.2 =
        IncreasingDiameterSearch.mkRange loc.z 0 (ctx.tileDimZ loc.x loc.y)) ∧
    (cell.constr_x = none →
      (rootSearches ctx cur cell).1 =
        IncreasingDiameterSearch.mkRange cur.x 0 (ctx.gridDimX - 1)) ∧
    (cell.constr_y = none →
      (rootSearches ctx cur cell).2.1 =
        IncreasingDiameterSearch.mkRange cur.y 0 (ctx.gridDimY - 1)) ∧
    (cell.constr_z = none →
      (rootSearches ctx cur cell).2.2 =
        IncreasingDiameterSearch.mkRange cur.z 0 (ctx.tileDimZ cur.x cur.y)) := by
  intro ctx loc cur child cell
  refine ⟨?_, ?_, ?_, ?_, ?_, ?_⟩ <;> intro h <;> simp [childSearches, rootSearches, h]

/-- Witness for C3: the fully unconstrained cell 0 of `ctxSwap`, with all
six hypotheses discharged. -/
theorem C3_witness :
    ((getCell ctxSwap 0).constr_x = none ∧ (getCell ctxSwap 0).constr_y = none ∧
      (getCell ctxSwap 0).constr_z = none) ∧
    (childSearches ctxSwap ⟨0, 0, 0⟩ (getCell ctxSwap 0)).1 =
      IncreasingDiameterSearch.mkRange 0 0 (ctxSwap.gridDimX - 1) ∧
    (childSearches ctxSwap ⟨0, 0, 0⟩ (getCell ctxSwap 0)).2.1 =
      IncreasingDiameterSearch.mkRange 0 0 (ctxSwap.gridDimY - 1) ∧
    (childSearches ctxSwap ⟨0, 0, 0⟩ (getCell ctxSwap 0)).2.2 =
      IncreasingDiameterSearch.mkRange 0 0 (ctxSwap.tileDimZ 0 0) ∧
    (rootSearches ctxSwap ⟨0, 0, 0⟩ (getCell ctxSwap 0)).1 =
      IncreasingDiameterSearch.mkRange 0 0 (ctxSwap.gridDimX - 1) ∧
    (rootSearches ctxSwap ⟨0, 0, 0⟩ (getCell ctxSwap 0)).2.1 =
      IncreasingDiameterSearch.mkRange 0 0 (ctxSwap.gridDimY - 1) ∧
    (rootSearches ctxSwap ⟨0, 0, 0⟩ (getCell ctxSwap 0)).2.2 =
      IncreasingDiameterSearch.mkRange 0 0 (ctxSwap.tileDimZ 0 0) := by
  have h := C3_amended ctxSwap ⟨0, 0, 0⟩ ⟨0, 0, 0⟩ (getCell ctxSwap 0) (getCell ctxSwap 0)
  exact ⟨⟨by decide, by decide, by decide⟩,
    h.1 (by decide), h.2.1 (by decide), h.2.2.1 (by decide),
    h.2.2.2.1 (by decide), h.2.2.2.2.1 (by decide), h.2.2.2.2.2 (by decide)⟩

/-- Claim C1, failing input: on `ctxEx`/`stEx`, `legalise_constraints`
returns success, yet afterwards chain cell 1 has strength WEAK (it was
ripped by the chain rooted at cell 0, re-bound LOCKED by its own chain
rooted at cell 2, and then moved again with strength WEAK by the final
`place_single_cell` pass over `rippedCells`), and the chain rooted at
cell 2 has `constraints_distance = 1`, not 0.  This contradicts both the
spec postcondition and the source's own intent, witnessed by its
`NPNR_ASSERT(constraints_satisfied(cell))` at line 369 immediately after
each chain is placed. -/
theorem C1_legalise_postcondition_fails :
    exRun.1 = Except.ok true ∧
    exRun.2.cellStrength 1 ≠ STRENGTH_LOCKED ∧
    get_constraints_distance ctxEx exRun.2 60 2 ≠ 0 := by
  refine ⟨rfl, by decide, by decide⟩

/-- Claim C6, counterexample: the same successful `legalise_constraints` run
on `ctxEx`/`stEx` unbinds the bel holding cell 1 while cell 1's strength is
LOCKED (inside the `place_single_cell` call on the ripped cell), so
`legalise_relative_constraints` is not locked-cell stable. -/
theorem C6_counterexample :
    exRun.1 = Except.ok true ∧
    exRun.2.events.contains (Ev.unbind 1 STRENGTH_LOCKED) = true := by
  refine ⟨rfl, by decide⟩

/-- Claim C9, counterexample: in the successful `legalise_constraints` run
on `ctxEx`/`stEx` the ripped cell is re-placed through `place_single_cell`
called with `require_legality = true` (the source passes the constant
`STRENGTH_WEAK`, which converts to `true`), never with `false` as the claim
states. -/
theorem C9_counterexample :
    exRun.2.events.contains (Ev.placeCall true) = true ∧
    exRun.2.events.contains (Ev.placeCall false) = false := by
  refine ⟨by decide, by decide⟩

set_option maxHeartbeats 1000000 in
/-- Claim C8, counterexample: on the swap world the outer loop of
`place_single_cell` runs its full 26 iterations (iteration `k` sees
`iters = 26 - k`), and jitter is drawn in the 22 iterations with
`iters = 25 .. 4` — in particular in iteration 22 (`iters = 4`), which is
later than the claimed first 21 iterations. -/
theorem C8_counterexample :
    swapRun.2.events.contains (Ev.jitter 4) = true ∧
    (swapRun.2.events.filter
      (fun e => match e with | Ev.jitter _ => true | _ => false)).length = 22 ∧
    (swapRun.2.events.filter
      (fun e => match e with | Ev.iterStart _ => true | _ => false)).length = 26 ∧
    swapRun.2.events.contains (Ev.jitter 3) = false := by
  refine ⟨by decide, by decide, by decide, by decide⟩

/-! ## Helper lemmas on states and events -/

/-- Appending one event preserves an all-events predicate. -/
theorem all_append_one {p : Ev → Bool} {l : List Ev} {e : Ev}
    (hl : l.all p = true) (he : p e = true) : (l ++ [e]).all p = true := by
  simp [List.all_append, hl, he]

/-- A generic fold invariant, remembering membership of the folded
elements. -/
theorem foldl_inv {α β : Type _} (P : α → Prop) (f : α → β → α) :
    ∀ (l : List β), (∀ a b, b ∈ l → P a → P (f a b)) → ∀ a, P a → P (l.foldl f a) := by
  intro l
  induction l with
  | nil => intro _ a ha; exact ha
  | cons x xs ih =>
      intro h a ha
      exact ih (fun a' b hb => h a' b (List.mem_cons_of_mem _ hb)) (f a x)
        (h a x (List.mem_cons_self _ _) ha)

/-- `addEvent` only touches the log. -/
theorem addEvent_fields (st : PState) (e : Ev) :
    (addEvent st e).belCell = st.belCell ∧ (addEvent st e).cellBel = st.cellBel ∧
    (addEvent st e).cellStrength = st.cellStrength ∧
    (addEvent st e).events = st.events ++ [e] := by
  obtain ⟨bc, cb, cs, tape, ev⟩ := st
  exact ⟨rfl, rfl, rfl, rfl⟩

/-- `rngDraw` only touches the tape. -/
theorem rngDraw_fields (st : PState) (n : Nat) :
    (rngDraw st n).2.belCell = st.belCell ∧ (rngDraw st n).2.cellBel = st.cellBel ∧
    (rngDraw st n).2.cellStrength = st.cellStrength ∧
    (rngDraw st n).2.events = st.events := by
  obtain ⟨bc, cb, cs, tape, ev⟩ := st
  cases tape <;> exact ⟨rfl, rfl, rfl, rfl⟩

/-- `jitterCost` only touches the tape and the log, and any event it adds is
a jitter draw at the current `iters` with `4 ≤ iters`. -/
theorem jitterCost_fields (iters : Nat) (w0 : Int) (st : PState) :
    (jitterCost iters w0 st).2.belCell = st.belCell ∧
    (jitterCost iters w0 st).2.cellBel = st.cellBel ∧
    (jitterCost iters w0 st).2.cellStrength = st.cellStrength ∧
    ((jitterCost iters w0 st).2.events = st.events ∨
      (4 ≤ iters ∧ (jitterCost iters w0 st).2.events = st.events ++ [Ev.jitter iters])) := by
  unfold jitterCost
  split_ifs with h
  · rcases hq : rngDraw st 25 with ⟨j, st'⟩
    have hr := rngDraw_fields st 25
    rw [hq] at hr
    have ha := addEvent_fields st' (Ev.jitter iters)
    refine ⟨?_, ?_, ?_, Or.inr ⟨h, ?_⟩⟩
    · rw [ha.1, hr.1]
    · rw [ha.2.1, hr.2.1]
    · rw [ha.2.2.1, hr.2.2.1]
    · rw [ha.2.2.2, hr.2.2.2]
  · exact ⟨rfl, rfl, rfl, Or.inl rfl⟩

/-- `bindBel` only touches the maps, never the log. -/
theorem bindBel_events (st : PState) (b c s : Nat) :
    (bindBel st b c s).events = st.events := by
  obtain ⟨bc, cb, cs, tape, ev⟩ := st
  rfl

/-- The strength of a cell after `bindBel`. -/
theorem bindBel_strength (st : PState) (b c s x : Nat) :
    (bindBel st b c s).cellStrength x = if x = c then s else st.cellStrength x := by
  obtain ⟨bc, cb, cs, tape, ev⟩ := st
  rfl

/-- What `unbindBel` does, case by case on the occupancy of the bel. -/
theorem unbindBel_cases (st : PState) (b : Nat) :
    (st.belCell b = none ∧ unbindBel st b = st) ∨
    (∃ c, st.belCell b = some c ∧
      (unbindBel st b).belCell = (fun b' => if b' = b then none else st.belCell b') ∧
      (unbindBel st b).cellBel = (fun c' => if c' = c then none else st.cellBel c') ∧
      (unbindBel st b).cellStrength =
        (fun c' => if c' = c then STRENGTH_NONE else st.cellStrength c') ∧
      (unbindBel st b).events = st.events ++ [Ev.unbind c (st.cellStrength c)]) := by
  obtain ⟨bc, cb, cs, tape, ev⟩ := st
  rcases hb : bc b with _ | c
  · left
    constructor
    · exact hb
    · simp only [unbindBel, hb]
  · right
    refine ⟨c, hb, ?_, ?_, ?_, ?_⟩ <;> simp only [unbindBel, hb]

/-- Unbinding preserves an all-events predicate that accepts unbind
events. -/
theorem unbindBel_events_all {p : Ev → Bool} (hUnb : ∀ c s, p (Ev.unbind c s) = true)
    (st : PState) (b : Nat) (h : st.events.all p = true) :
    (unbindBel st b).events.all p = true := by
  rcases unbindBel_cases st b with ⟨_, heq⟩ | ⟨c, _, _, _, _, hev⟩
  · rw [heq]; exact h
  · rw [hev]; exact all_append_one h (hUnb _ _)

/-- One scan step preserves `ScanInv`. -/
theorem scanStep_inv (ctx : Context) (cell : CellData) (rl : Bool) (iters : Nat)
    (st0 : PState) (acc : ScanRes × PState) (bel : Nat) (hbel : bel ∈ ctx.bels)
    (h : ScanInv ctx st0 acc) : ScanInv ctx st0 (scanStep ctx cell rl iters acc bel) := by
  obtain ⟨⟨best, bestW, rip, ripW⟩, st⟩ := acc
  obtain ⟨h1, h2, h3, h4, h5⟩ := h
  unfold scanStep
  split_ifs with hcond
  · rcases hq : jitterCost iters (get_cell_metric_at_bel ctx st cell bel MetricType.COST) st
      with ⟨w, st1⟩
    have hj := jitterCost_fields iters (get_cell_metric_at_bel ctx st cell bel MetricType.COST) st
    rw [hq] at hj
    dsimp only at hj
    have hb1 : st1.belCell = st0.belCell := by rw [hj.1]; exact h1
    have hb2 : st1.cellBel = st0.cellBel := by rw [hj.2.1]; exact h2
    have hb3 : st1.cellStrength = st0.cellStrength := by rw [hj.2.2.1]; exact h3
    obtain ⟨bc, cb, cs, tape, ev⟩ := st1
    simp only at hb1 hb2 hb3
    simp only [hq]
    rcases hbc : bc bel with _ | curr
    · simp only [hbc]
      split_ifs with hw
      · refine ⟨hb1, hb2, hb3, h4, ?_⟩
        intro bb hbb
        cases hbb
        constructor
        · rw [← hb1]; exact hbc
        · exact hbel
      · exact ⟨hb1, hb2, hb3, h4, h5⟩
    · simp only [hbc]
      split_ifs with hw hs
      · refine ⟨hb1, hb2, hb3, ?_, h5⟩
        intro rb rt hrr
        cases hrr
        refine ⟨?_, ?_, hbel⟩
        · rw [← hb3]; exact hs
        · rw [← hb1]; exact hbc
      · exact ⟨hb1, hb2, hb3, h4, h5⟩
      · exact ⟨hb1, hb2, hb3, h4, h5⟩
  · exact ⟨h1, h2, h3, h4, h5⟩

/-- The full scan satisfies `ScanInv`. -/
theorem scanBels_inv (ctx : Context) (cell : CellData) (rl : Bool) (iters : Nat)
    (st0 : PState) : ScanInv ctx st0 (scanBels ctx cell rl iters st0) := by
  unfold scanBels
  refine foldl_inv (ScanInv ctx st0) _ ctx.bels
    (fun a b hb ha => scanStep_inv ctx cell rl iters st0 a b hb ha) (scanInit, st0) ?_
  refine ⟨rfl, rfl, rfl, ?_, ?_⟩
  · intro rb rt hrr; simp [scanInit] at hrr
  · intro bb hbb; simp [scanInit] at hbb

/-- The scan preserves an all-events predicate that accepts jitter draws at
`iters >= 4`. -/
theorem scanBels_events_all {p : Ev → Bool} (hJit : ∀ i, 4 ≤ i → p (Ev.jitter i) = true)
    (ctx : Context) (cell : CellData) (rl : Bool) (iters : Nat) (st0 : PState)
    (h : st0.events.all p = true) :
    ((scanBels ctx cell rl iters st0).2.events.all p = true) := by
  unfold scanBels
  refine foldl_inv (fun x => x.2.events.all p = true) _ ctx.bels ?_ (scanInit, st0) h
  intro a b _ ha
  obtain ⟨⟨best, bestW, rip, ripW⟩, st⟩ := a
  unfold scanStep
  split_ifs with hcond
  · rcases hq : jitterCost iters (get_cell_metric_at_bel ctx st cell b MetricType.COST) st
      with ⟨w, st1⟩
    have hj := jitterCost_fields iters (get_cell_metric_at_bel ctx st cell b MetricType.COST) st
    rw [hq] at hj
    dsimp only at hj
    have hev : st1.events.all p = true := by
      rcases hj.2.2.2 with he | ⟨hi, he⟩
      · rw [he]; exact ha
      · rw [he]; exact all_append_one ha (hJit _ hi)
    obtain ⟨bc, cb, cs, tape, ev⟩ := st1
    simp only at hev
    simp only [hq]
    rcases hbc : bc b with _ | curr <;> simp only [hbc] <;> split_ifs <;> exact hev
  · exact ha

/-- selfUnbind preserves all-events predicates accepting unbinds. -/
theorem selfUnbind_events_all {p : Ev → Bool} (hUnb : ∀ c s, p (Ev.unbind c s) = true)
    (st : PState) (cname : Nat) (h : st.events.all p = true) :
    (selfUnbind st cname).events.all p = true := by
  obtain ⟨bc, cb, cs, tape, ev⟩ := st
  unfold selfUnbind
  rcases hcb : cb cname with _ | b
  · simp only [hcb]; exact h
  · simp only [hcb]
    exact unbindBel_events_all hUnb _ _ h

theorem placeLoop_events_all {p : Ev → Bool}
    (hIter : ∀ i, p (Ev.iterStart i) = true)
    (hJit : ∀ i, 4 ≤ i → p (Ev.jitter i) = true)
    (hUnb : ∀ c s, p (Ev.unbind c s) = true)
    (hRip : ∀ c s, s < STRENGTH_STRONG → p (Ev.ripup c s) = true)
    (ctx : Context) :
    ∀ (iters : Nat) (cell : CellData) (rl : Bool) (st : PState),
      st.events.all p = true →
      ((placeLoop ctx iters cell rl st).2.events.all p = true) := by
  intro iters
  induction iters with
  | zero =>
      intro cell rl st h
      rw [placeLoop]
      have hst2 : (selfUnbind (addEvent st (Ev.iterStart 0)) cell.name).events.all p = true := by
        apply selfUnbind_events_all hUnb
        rw [(addEvent_fields st (Ev.iterStart 0)).2.2.2]
        exact all_append_one h (hIter _)
      generalize hg : selfUnbind (addEvent st (Ev.iterStart 0)) cell.name = st2 at hst2 ⊢
      rcases hscan : scanBels ctx cell rl 0 st2 with ⟨⟨best, bw, rip, rw2⟩, st3⟩
      simp only [hscan]
      have hev3 : st3.events.all p = true := by
        have hh := scanBels_events_all hJit ctx cell rl 0 st2 hst2
        rw [hscan] at hh
        exact hh
      cases best with
      | some bb =>
          simp only
          rw [bindBel_events]
          exact hev3
      | none => exact hev3
  | succ i ih =>
      intro cell rl st h
      rw [placeLoop]
      have hst2 : (selfUnbind (addEvent st (Ev.iterStart (i + 1))) cell.name).events.all p = true := by
        apply selfUnbind_events_all hUnb
        rw [(addEvent_fields st (Ev.iterStart (i + 1))).2.2.2]
        exact all_append_one h (hIter _)
      generalize hg : selfUnbind (addEvent st (Ev.iterStart (i + 1))) cell.name = st2 at hst2 ⊢
      rcases hscan : scanBels ctx cell rl (i + 1) st2 with ⟨⟨best, bw, rip, rw2⟩, st3⟩
      simp only [hscan]
      have hinv := scanBels_inv ctx cell rl (i + 1) st2
      rw [hscan] at hinv
      obtain ⟨hi1, hi2, hi3, hi4, hi5⟩ := hinv
      dsimp only at hi1 hi2 hi3 hi4 hi5
      have hev3 : st3.events.all p = true := by
        have hh := scanBels_events_all hJit ctx cell rl (i + 1) st2 hst2
        rw [hscan] at hh
        exact hh
      cases best with
      | some bb =>
          simp only
          rw [bindBel_events]
          exact hev3
      | none =>
          cases rip with
          | none => exact hev3
          | some pr =>
              obtain ⟨rb, rt⟩ := pr
              have hrt := hi4 rb rt rfl
              obtain ⟨bc3, cb3, cs3, tape3, ev3⟩ := st3
              simp only at hev3 hi1 hi2 hi3
              simp only
              have hev4 : (ev3 ++ [Ev.ripup rt (cs3 rt)]).all p = true := by
                refine all_append_one hev3 (hRip _ _ ?_)
                rw [hi3]
                exact hrt.1
              rcases hcb3 : cb3 rt with _ | vb
              · simp only [hcb3]
                apply ih
                rw [bindBel_events]
                exact hev4
              · simp only [hcb3]
                apply ih
                rw [bindBel_events]
                exact unbindBel_events_all hUnb _ _ hev4

/-- placeLoop only ever returns ok true or a fatal error. -/
theorem placeLoop_resultTrue (ctx : Context) :
    ∀ (iters : Nat) (cell : CellData) (rl : Bool) (st : PState),
      resultTrue (placeLoop ctx iters cell rl st).1 = true := by
  intro iters
  induction iters with
  | zero =>
      intro cell rl st
      rw [placeLoop]
      rcases hscan : scanBels ctx cell rl 0 (selfUnbind (addEvent st (Ev.iterStart 0)) cell.name)
        with ⟨⟨best, bw, rip, rw2⟩, st3⟩
      simp only [hscan]
      cases best <;> rfl
  | succ i ih =>
      intro cell rl st
      rw [placeLoop]
      rcases hscan : scanBels ctx cell rl (i + 1)
          (selfUnbind (addEvent st (Ev.iterStart (i + 1))) cell.name)
        with ⟨⟨best, bw, rip, rw2⟩, st3⟩
      simp only [hscan]
      cases best with
      | some bb => rfl
      | none =>
          cases rip with
          | none => rfl
          | some pr =>
              obtain ⟨rb, rt⟩ := pr
              obtain ⟨bc3, cb3, cs3, tape3, ev3⟩ := st3
              simp only
              rcases hcb3 : cb3 rt with _ | vb <;> simp only [hcb3] <;> apply ih

/-- placeLoop with an exhausted budget either reports the ripup iteration
limit or succeeds. -/
theorem placeLoop_zero_cases (ctx : Context) (cell : CellData) (rl : Bool) (st : PState) :
    (placeLoop ctx 0 cell rl st).1 = Except.error Fatal.ripupLimit ∨
    (placeLoop ctx 0 cell rl st).1 = Except.ok true := by
  rw [placeLoop]
  rcases hscan : scanBels ctx cell rl 0 (selfUnbind (addEvent st (Ev.iterStart 0)) cell.name)
    with ⟨⟨best, bw, rip, rw2⟩, st3⟩
  simp only [hscan]
  cases best
  · left; rfl
  · right; rfl

/-- Appending one event adds one loop entry iff the event is one. -/
theorem countIter_append (l : List Ev) (e : Ev) :
    countIter (l ++ [e]) = countIter l + (if isIterStart e then 1 else 0) := by
  simp only [countIter, List.filter_append, List.length_append, List.filter_cons,
    List.filter_nil]
  split_ifs <;> simp

theorem countIter_unbindBel (st : PState) (b : Nat) :
    countIter (unbindBel st b).events = countIter st.events := by
  rcases unbindBel_cases st b with ⟨_, heq⟩ | ⟨c, _, _, _, _, hev⟩
  · rw [heq]
  · rw [hev, countIter_append]; simp [isIterStart]

theorem countIter_selfUnbind (st : PState) (cname : Nat) :
    countIter (selfUnbind st cname).events = countIter st.events := by
  obtain ⟨bc, cb, cs, tape, ev⟩ := st
  unfold selfUnbind
  rcases hcb : cb cname with _ | b
  · simp only [hcb]
  · simp only [hcb]; exact countIter_unbindBel _ _

theorem countIter_jitterCost (iters : Nat) (w0 : Int) (st : PState) :
    countIter (jitterCost iters w0 st).2.events = countIter st.events := by
  have hj := jitterCost_fields iters w0 st
  rcases hj.2.2.2 with he | ⟨_, he⟩
  · rw [he]
  · rw [he, countIter_append]; simp [isIterStart]

theorem countIter_scanBels (ctx : Context) (cell : CellData) (rl : Bool) (iters : Nat)
    (st0 : PState) :
    countIter (scanBels ctx cell rl iters st0).2.events = countIter st0.events := by
  unfold scanBels
  refine foldl_inv (fun x => countIter x.2.events = countIter st0.events) _ ctx.bels ?_
    (scanInit, st0) rfl
  intro a b _ ha
  obtain ⟨⟨best, bestW, rip, ripW⟩, st⟩ := a
  unfold scanStep
  split_ifs with hcond
  · rcases hq : jitterCost iters (get_cell_metric_at_bel ctx st cell b MetricType.COST) st
      with ⟨w, st1⟩
    have hj := countIter_jitterCost iters (get_cell_metric_at_bel ctx st cell b MetricType.COST) st
    rw [hq] at hj
    dsimp only at hj
    obtain ⟨bc, cb, cs, tape, ev⟩ := st1
    simp only at hj
    simp only [hq]
    rcases hbc : bc b with _ | curr <;> simp only [hbc] <;> split_ifs <;> exact hj.trans ha
  · exact ha

/-- The loop makes at most `iters + 1` entries. -/
theorem placeLoop_countIter (ctx : Context) :
    ∀ (iters : Nat) (cell : CellData) (rl : Bool) (st : PState),
      countIter (placeLoop ctx iters cell rl st).2.events ≤ countIter st.events + (iters + 1) := by
  intro iters
  induction iters with
  | zero =>
      intro cell rl st
      rw [placeLoop]
      rcases hscan : scanBels ctx cell rl 0 (selfUnbind (addEvent st (Ev.iterStart 0)) cell.name)
        with ⟨⟨best, bw, rip, rw2⟩, st3⟩
      have hc : countIter st3.events = countIter st.events + 1 := by
        have h1 := countIter_scanBels ctx cell rl 0
          (selfUnbind (addEvent st (Ev.iterStart 0)) cell.name)
        rw [hscan] at h1
        dsimp only at h1
        rw [h1, countIter_selfUnbind, (addEvent_fields st (Ev.iterStart 0)).2.2.2,
          countIter_append]
        simp [isIterStart]
      simp only [hscan]
      cases best with
      | some bb => rw [bindBel_events]; omega
      | none =>
          show countIter st3.events ≤ countIter st.events + (0 + 1)
          omega
  | succ i ih =>
      intro cell rl st
      rw [placeLoop]
      rcases hscan : scanBels ctx cell rl (i + 1)
          (selfUnbind (addEvent st (Ev.iterStart (i + 1))) cell.name)
        with ⟨⟨best, bw, rip, rw2⟩, st3⟩
      have hc : countIter st3.events = countIter st.events + 1 := by
        have h1 := countIter_scanBels ctx cell rl (i + 1)
          (selfUnbind (addEvent st (Ev.iterStart (i + 1))) cell.name)
        rw [hscan] at h1
        dsimp only at h1
        rw [h1, countIter_selfUnbind, (addEvent_fields st (Ev.iterStart (i + 1))).2.2.2,
          countIter_append]
        simp [isIterStart]
      simp only [hscan]
      cases best with
      | some bb => rw [bindBel_events]; omega
      | none =>
          cases rip with
          | none =>
              show countIter st3.events ≤ countIter st.events + (i + 1 + 1)
              omega
          | some pr =>
              obtain ⟨rb, rt⟩ := pr
              obtain ⟨bc3, cb3, cs3, tape3, ev3⟩ := st3
              simp only at hc
              simp only
              rcases hcb3 : cb3 rt with _ | vb
              · simp only [hcb3]
                have := ih (getCell ctx rt) rl
                  (bindBel ⟨bc3, cb3, cs3, tape3, ev3 ++ [Ev.ripup rt (cs3 rt)]⟩ rb cell.name
                    STRENGTH_WEAK)
                rw [bindBel_events] at this
                have h4 : countIter (ev3 ++ [Ev.ripup rt (cs3 rt)]) = countIter ev3 := by
                  rw [countIter_append]; simp [isIterStart]
                simp only at this
                omega
              · simp only [hcb3]
                have := ih (getCell ctx rt) rl
                  (bindBel
                    (unbindBel ⟨bc3, cb3, cs3, tape3, ev3 ++ [Ev.ripup rt (cs3 rt)]⟩ vb)
                    rb cell.name STRENGTH_WEAK)
                rw [bindBel_events, countIter_unbindBel] at this
                have h4 : countIter (ev3 ++ [Ev.ripup rt (cs3 rt)]) = countIter ev3 := by
                  rw [countIter_append]; simp [isIterStart]
                simp only at this
                omega

/-- Locking down a chain never logs events. -/
theorem lockdown_events (ctx : Context) :
    ∀ fuel : Nat,
      (∀ (n : Nat) (st : PState), (lockdown_chain ctx fuel n st).events = st.events) ∧
      (∀ (l : List Nat) (st : PState), (lockdown_list ctx fuel l st).events = st.events) := by
  intro fuel
  induction fuel with
  | zero => exact ⟨fun n st => rfl, fun l st => rfl⟩
  | succ f ih =>
      constructor
      · intro n st
        obtain ⟨bc, cb, cs, tape, ev⟩ := st
        simp only [lockdown_chain]
        rw [ih.2]
      · intro l st
        cases l with
        | nil => rfl
        | cons ch rest =>
            simp only [lockdown_list]
            rw [ih.2, ih.1]

/-- Unbinding a solution preserves an all-events predicate accepting
unbinds. -/
theorem unbindSolution_events_all {p : Ev → Bool} (hUnb : ∀ c s, p (Ev.unbind c s) = true)
    (sol : List (Nat × Loc)) (st : PState) (h : st.events.all p = true) :
    (unbindSolution sol st).events.all p = true := by
  unfold unbindSolution
  refine foldl_inv (fun s => s.events.all p = true) _ sol ?_ st h
  intro s q _ hs
  obtain ⟨bc, cb, cs, tape, ev⟩ := s
  rcases hcb : cb q.1 with _ | b
  · simp only [hcb]; exact hs
  · simp only [hcb]; exact unbindBel_events_all hUnb _ _ hs

/-- The bind step of the legaliser preserves an all-events predicate
accepting unbinds and sub-STRONG ripups. -/
theorem legalise_apply_events_all {p : Ev → Bool}
    (hUnb : ∀ c s, p (Ev.unbind c s) = true)
    (hRip : ∀ c s, s < STRENGTH_STRONG → p (Ev.ripup c s) = true)
    (ctx : Context) :
    ∀ (sol : List (Nat × Loc)) (st : PState) (ripped : List Nat),
      st.events.all p = true →
      ((legalise_apply ctx sol st ripped).2.1.events.all p = true) := by
  intro sol
  induction sol with
  | nil => intro st ripped h; exact h
  | cons q rest ih =>
      obtain ⟨cname, loc⟩ := q
      intro st ripped h
      rw [legalise_apply]
      rcases hb : getBelByLocation ctx loc with _ | target
      · simp only [hb]; exact h
      · simp only [hb]
        obtain ⟨bc, cb, cs, tape, ev⟩ := st
        rcases hc : bc target with _ | confl
        · simp only [hc]
          apply ih
          rw [bindBel_events]
          exact h
        · simp only [hc]
          split_ifs with hs
          · exact h
          · apply ih
            rw [bindBel_events]
            apply unbindBel_events_all hUnb
            exact all_append_one h (hRip _ _ (Nat.lt_of_not_le hs))

/-- The root-candidate loop preserves an all-events predicate accepting
unbinds and sub-STRONG ripups. -/
theorem legalise_rootLoop_events_all {p : Ev → Bool}
    (hUnb : ∀ c s, p (Ev.unbind c s) = true)
    (hRip : ∀ c s, s < STRENGTH_STRONG → p (Ev.ripup c s) = true)
    (ctx : Context) (fuel : Nat) :
    ∀ (lf : Nat) (xS yS zS : IncreasingDiameterSearch) (cell : CellData) (st : PState)
      (ripped : List Nat),
      st.events.all p = true →
      ((legalise_rootLoop ctx fuel lf xS yS zS cell st ripped).2.1.events.all p = true) := by
  intro lf
  induction lf with
  | zero => intro xS yS zS cell st ripped h; exact h
  | succ n ih =>
      intro xS yS zS cell st ripped h
      rw [legalise_rootLoop]
      split_ifs with hd
      · exact h
      · rcases hadv : advanceSearches xS yS zS with ⟨xS2, yS2, zS2⟩
        try simp only [hadv]
        rcases hv : valid_loc_for ctx st fuel cell ⟨xS.get, yS.get, zS.get⟩ [] []
          with ⟨ok, sol, used⟩
        try simp only [hv]
        cases ok with
        | false => exact ih _ _ _ _ _ _ h
        | true =>
            have h1 : (unbindSolution sol st).events.all p = true :=
              unbindSolution_events_all hUnb sol st h
            rcases ha : legalise_apply ctx sol (unbindSolution sol st) ripped
              with ⟨res, st2, ripped2⟩
            have h2 := legalise_apply_events_all hUnb hRip ctx sol (unbindSolution sol st)
              ripped h1
            rw [ha] at h2
            dsimp only at h2
            simp only [ha]
            cases res with
            | ok u =>
                try dsimp only
                split_ifs <;> exact h2
            | error e => exact h2

/-- One `legalise_cell` call preserves an all-events predicate accepting
unbinds and sub-STRONG ripups. -/
theorem legalise_cell_events_all {p : Ev → Bool}
    (hUnb : ∀ c s, p (Ev.unbind c s) = true)
    (hRip : ∀ c s, s < STRENGTH_STRONG → p (Ev.ripup c s) = true)
    (ctx : Context) (fuel : Nat) (oldLocs : List (Nat × Loc)) (cell : CellData)
    (st : PState) (ripped : List Nat) (h : st.events.all p = true) :
    ((legalise_cell ctx fuel oldLocs cell st ripped).2.1.events.all p = true) := by
  unfold legalise_cell
  split_ifs with h1 h2
  · exact h
  · show ((lockdown_chain ctx fuel cell.name st).events.all p = true)
    rw [(lockdown_events ctx fuel).1]
    exact h
  · rcases hr : rootSearches ctx
      (match st.cellBel cell.name with
       | some b => ctx.belLoc b
       | none => (lookupLoc oldLocs cell.name).getD ⟨0, 0, 0⟩) cell with ⟨xS, yS, zS⟩
    try simp only [hr]
    exact legalise_rootLoop_events_all hUnb hRip ctx fuel fuel xS yS zS cell st ripped h

/-- The per-cell loop of the legaliser preserves such a predicate. -/
theorem legalise_cells_events_all {p : Ev → Bool}
    (hUnb : ∀ c s, p (Ev.unbind c s) = true)
    (hRip : ∀ c s, s < STRENGTH_STRONG → p (Ev.ripup c s) = true)
    (ctx : Context) (fuel : Nat) (oldLocs : List (Nat × Loc)) :
    ∀ (cells : List CellData) (st : PState) (ripped : List Nat),
      st.events.all p = true →
      ((legalise_cells ctx fuel oldLocs cells st ripped).2.1.events.all p = true) := by
  intro cells
  induction cells with
  | nil => intro st ripped h; exact h
  | cons c rest ih =>
      intro st ripped h
      rw [legalise_cells]
      rcases hc : legalise_cell ctx fuel oldLocs c st ripped with ⟨res, st1, ripped1⟩
      have h1 := legalise_cell_events_all hUnb hRip ctx fuel oldLocs c st ripped h
      rw [hc] at h1
      dsimp only at h1
      try simp only [hc]
      cases res with
      | error e => exact h1
      | ok b =>
          cases b with
          | true => exact ih _ _ h1
          | false => exact h1

/-- The ripped-cell loop preserves a predicate accepting also the recorded
placer calls. -/
theorem place_ripped_events_all {p : Ev → Bool}
    (hIter : ∀ i, p (Ev.iterStart i) = true)
    (hJit : ∀ i, 4 ≤ i → p (Ev.jitter i) = true)
    (hUnb : ∀ c s, p (Ev.unbind c s) = true)
    (hRip : ∀ c s, s < STRENGTH_STRONG → p (Ev.ripup c s) = true)
    (hCall : p (Ev.placeCall requireLegalityArg) = true)
    (ctx : Context) :
    ∀ (l : List Nat) (st : PState), st.events.all p = true →
      ((place_ripped ctx l st).2.events.all p = true) := by
  intro l
  induction l with
  | nil => intro st h; exact h
  | cons cname rest ih =>
      intro st h
      rw [place_ripped]
      have h1 : (addEvent st (Ev.placeCall requireLegalityArg)).events.all p = true := by
        rw [(addEvent_fields st _).2.2.2]
        exact all_append_one h hCall
      have h2 := placeLoop_events_all hIter hJit hUnb hRip ctx 25 (getCell ctx cname)
        requireLegalityArg (addEvent st (Ev.placeCall requireLegalityArg)) h1
      simp only [place_single_cell]
      rcases hp : placeLoop ctx 25 (getCell ctx cname) requireLegalityArg
        (addEvent st (Ev.placeCall requireLegalityArg)) with ⟨res, st2⟩
      rw [hp] at h2
      dsimp only at h2
      try simp only [hp]
      cases res with
      | error e => exact h2
      | ok b =>
          cases b with
          | true => exact ih _ h2
          | false => exact h2

/-- The whole legaliser preserves an all-events predicate that accepts loop
entries, jitter at `iters >= 4`, unbinds, sub-STRONG ripups, and the
recorded placer calls. -/
theorem legalise_events_all {p : Ev → Bool}
    (hIter : ∀ i, p (Ev.iterStart i) = true)
    (hJit : ∀ i, 4 ≤ i → p (Ev.jitter i) = true)
    (hUnb : ∀ c s, p (Ev.unbind c s) = true)
    (hRip : ∀ c s, s < STRENGTH_STRONG → p (Ev.ripup c s) = true)
    (hCall : p (Ev.placeCall requireLegalityArg) = true)
    (ctx : Context) (fuel : Nat) (st : PState) (h : st.events.all p = true) :
    ((legalise_constraints ctx fuel st).2.events.all p = true) := by
  unfold legalise_constraints
  rcases hc : legalise_cells ctx fuel (snapshotLocs ctx st) ctx.cells st []
    with ⟨res, st1, ripped⟩
  have h1 := legalise_cells_events_all hUnb hRip ctx fuel (snapshotLocs ctx st) ctx.cells st [] h
  rw [hc] at h1
  dsimp only at h1
  try simp only [hc]
  cases res with
  | error e => exact h1
  | ok u =>
      rcases hp : place_ripped ctx ripped st1 with ⟨res2, st2⟩
      have h2 := place_ripped_events_all hIter hJit hUnb hRip hCall ctx ripped st1 h1
      rw [hp] at h2
      dsimp only at h2
      try simp only [hp]
      cases res2 <;> exact h2

/-- Claim C5 (confirmed): no operation rips up a cell of strength STRONG or
above.  Part 1: every ripup event of a `place_single_cell` run displaces a
victim below STRONG (the scan only selects such victims).  Part 2: the same
for a whole `legalise_relative_constraints` run (the apply step asserts the
incumbent is below STRONG before unbinding it).  Part 3: `valid_loc_for`
rejects outright any location whose conflicting incumbent has strength at
least STRONG. -/
theorem C5_ripup_only_below_strong :
    (∀ (ctx : Context) (cell : CellData) (rl : Bool) (st : PState),
      st.events.all ripupOK = true →
      ((place_single_cell ctx cell rl st).2.events.all ripupOK = true)) ∧
    (∀ (ctx : Context) (fuel : Nat) (st : PState),
      st.events.all ripupOK = true →
      ((legalise_constraints ctx fuel st).2.events.all ripupOK = true)) ∧
    (∀ (ctx : Context) (st : PState) (fuel : Nat) (cell : CellData) (loc : Loc)
      (sol : List (Nat × Loc)) (used : List Loc) (lb confl : Nat),
      getBelByLocation ctx loc = some lb →
      st.belCell lb = some confl →
      STRENGTH_STRONG ≤ st.cellStrength confl →
      (valid_loc_for ctx st fuel cell loc sol used).1 = false) := by
  refine ⟨?_, ?_, ?_⟩
  · intro ctx cell rl st h
    exact placeLoop_events_all (fun i => rfl) (fun i _ => rfl) (fun c s => rfl)
      (fun c s hs => by simpa [ripupOK] using hs) ctx 25 cell rl st h
  · intro ctx fuel st h
    exact legalise_events_all (fun i => rfl) (fun i _ => rfl) (fun c s => rfl)
      (fun c s hs => by simpa [ripupOK] using hs) rfl ctx fuel st h
  · intro ctx st fuel cell loc sol used lb confl hbel hconfl hstr
    cases fuel with
    | zero => rfl
    | succ f =>
        simp only [valid_loc_for, hbel, hconfl, decide_eq_true_eq]
        by_cases h1 : ctx.belType lb ≠ ctx.belTypeFromId cell.ctype
        · rw [if_pos h1]
        · rw [if_neg h1, if_pos hstr]

/-- Witness for C5: the swap world run, the `ctxEx` legalisation run, and a
rejection of location `(0,0,0)` of `ctxEx` once its bel holds the LOCKED
cell 0. -/
theorem C5_witness :
    (stSwap.events.all ripupOK = true ∧
      ((place_single_cell ctxSwap (getCell ctxSwap 0) true stSwap).2.events.all ripupOK = true)) ∧
    (stEx.events.all ripupOK = true ∧
      ((legalise_constraints ctxEx 60 stEx).2.events.all ripupOK = true)) ∧
    (getBelByLocation ctxEx ⟨0, 0, 0⟩ = some 0 ∧ exRun.2.belCell 0 = some 0 ∧
      STRENGTH_STRONG ≤ exRun.2.cellStrength 0 ∧
      (valid_loc_for ctxEx exRun.2 5 (getCell ctxEx 1) ⟨0, 0, 0⟩ [] []).1 = false) :=
  ⟨⟨rfl, C5_ripup_only_below_strong.1 ctxSwap (getCell ctxSwap 0) true stSwap rfl⟩,
   ⟨rfl, C5_ripup_only_below_strong.2.1 ctxEx 60 stEx rfl⟩,
   ⟨by decide, by decide, by decide,
    C5_ripup_only_below_strong.2.2 ctxEx exRun.2 5 (getCell ctxEx 1) ⟨0, 0, 0⟩ [] [] 0 0
      (by decide) (by decide) (by decide)⟩⟩

/-- Claim C7 (confirmed): the outer loop of `place_single_cell` executes at
most 26 times (the event log gains at most 26 loop entries, starting from
`iters = 25`), and when the loop body runs with `iters = 0` it either
succeeds or fails fatally with the "ripup iteration limit exceeded"
diagnostic (`Fatal.ripupLimit`) — it never loops further. -/
theorem C7_outer_loop_bound :
    (∀ (ctx : Context) (cell : CellData) (rl : Bool) (st : PState),
      countIter ((place_single_cell ctx cell rl st).2.events) ≤ countIter st.events + 26) ∧
    (∀ (ctx : Context) (cell : CellData) (rl : Bool) (st : PState),
      (placeLoop ctx 0 cell rl st).1 = Except.error Fatal.ripupLimit ∨
      (placeLoop ctx 0 cell rl st).1 = Except.ok true) := by
  constructor
  · intro ctx cell rl st
    exact placeLoop_countIter ctx 25 cell rl st
  · intro ctx cell rl st
    exact placeLoop_zero_cases ctx cell rl st

/-- Claim C8 (corrected): jitter is drawn exactly while `iters >= 4`; since
`iters` starts at 25, that is the first 22 iterations of the outer loop
(iteration `k` sees `iters = 26 - k`), not the first 21 as claimed.  Every
jitter event of any `place_single_cell` run is tagged with `iters >= 4`;
the counterexample run shows iteration 22 (`iters = 4`) still draws jitter
and iteration 23 (`iters = 3`) does not. -/
theorem C8_amended :
    ∀ (ctx : Context) (cell : CellData) (rl : Bool) (st : PState),
      st.events.all jitterOK = true →
      ((place_single_cell ctx cell rl st).2.events.all jitterOK = true) := by
  intro ctx cell rl st h
  exact placeLoop_events_all (fun i => rfl) (fun i hi => by simpa [jitterOK] using hi)
    (fun c s => rfl) (fun c s _ => rfl) ctx 25 cell rl st h

/-- Witness for C8: the swap world run. -/
theorem C8_witness :
    stSwap.events.all jitterOK = true ∧
    ((place_single_cell ctxSwap (getCell ctxSwap 0) true stSwap).2.events.all jitterOK = true) :=
  ⟨rfl, C8_amended ctxSwap (getCell ctxSwap 0) true stSwap rfl⟩

/-- Claim C9 (corrected): after all chains are legalised,
`legalise_constraints` calls `place_single_cell` once per `rippedCells`
entry and any failure is fatal, but the `require_legality` argument is
`true`, not `false`: the source passes the strength constant
`STRENGTH_WEAK`, which converts to `true` as a `bool`.  Every recorded
placer call of any legalisation run carries the flag `true`. -/
theorem C9_amended :
    ∀ (ctx : Context) (fuel : Nat) (st : PState),
      st.events.all placeFlagOK = true →
      ((legalise_constraints ctx fuel st).2.events.all placeFlagOK = true) := by
  intro ctx fuel st h
  exact legalise_events_all (fun i => rfl) (fun i _ => rfl) (fun c s => rfl)
    (fun c s _ => rfl) (by decide) ctx fuel st h

/-- Witness for C9: the `ctxEx` legalisation run, which re-places one ripped
cell. -/
theorem C9_witness :
    stEx.events.all placeFlagOK = true ∧
    ((legalise_constraints ctxEx 60 stEx).2.events.all placeFlagOK = true) :=
  ⟨rfl, C9_amended ctxEx 60 stEx rfl⟩

/-- Claim C10 (confirmed): whenever `place_single_cell` returns rather than
failing fatally, it returns `true`: its only boolean exit is the source's
`return true`, so inability to place surfaces only through the fatal
`log_error` paths, never through the return value. -/
theorem C10_place_single_cell_returns_true :
    ∀ (ctx : Context) (cell : CellData) (rl : Bool) (st : PState),
      resultTrue ((place_single_cell ctx cell rl st).1) = true := by
  intro ctx cell rl st
  exact placeLoop_resultTrue ctx 25 cell rl st

/-- Direction 1 of consistency: a bound bel of the device points back. -/
theorem consB_bel {ctx : Context} {st : PState} (h : ConsistentB ctx st = true)
    {b c : Nat} (hb : b ∈ ctx.bels) (hbc : st.belCell b = some c) :
    st.cellBel c = some b ∧ c ∈ cellNames ctx := by
  unfold ConsistentB at h
  rw [Bool.and_eq_true] at h
  have h1 := (List.all_eq_true.mp h.1) b hb
  rw [hbc] at h1
  rw [Bool.and_eq_true, decide_eq_true_eq] at h1
  exact ⟨h1.1, List.mem_of_elem_eq_true h1.2⟩

/-- Direction 2 of consistency: a placed cell of the netlist points back. -/
theorem consB_cell {ctx : Context} {st : PState} (h : ConsistentB ctx st = true)
    {cd : CellData} (hcd : cd ∈ ctx.cells) {b : Nat} (hcb : st.cellBel cd.name = some b) :
    st.belCell b = some cd.name ∧ b ∈ ctx.bels := by
  unfold ConsistentB at h
  rw [Bool.and_eq_true] at h
  have h2 := (List.all_eq_true.mp h.2) cd hcd
  rw [hcb] at h2
  rw [Bool.and_eq_true, decide_eq_true_eq] at h2
  exact ⟨h2.1, List.mem_of_elem_eq_true h2.2⟩

/-- Consistency only looks at the two binding maps. -/
theorem consB_congr {ctx : Context} {st1 st2 : PState} (h1 : st1.belCell = st2.belCell)
    (h2 : st1.cellBel = st2.cellBel) : ConsistentB ctx st1 = ConsistentB ctx st2 := by
  unfold ConsistentB
  rw [h1, h2]

/-- A name of the netlist resolves to a cell carrying that name. -/
theorem getCell_name_of_mem {ctx : Context} {n : Nat} (h : n ∈ cellNames ctx) :
    (getCell ctx n).name = n := by
  obtain ⟨cd, hcd, hname⟩ := List.mem_map.mp h
  unfold getCell
  rcases hf : ctx.cells.find? (fun c => c.name = n) with _ | c'
  · exfalso
    have := List.find?_eq_none.mp hf cd hcd
    simp [hname] at this
  · have hp := List.find?_some hf
    simp only [decide_eq_true_eq] at hp
    rw [hf]
    exact hp

/-- The fields of `bindBel`. -/
theorem bindBel_fields (st : PState) (b c s : Nat) :
    (bindBel st b c s).belCell = (fun x => if x = b then some c else st.belCell x) ∧
    (bindBel st b c s).cellBel = (fun x => if x = c then some b else st.cellBel x) ∧
    (bindBel st b c s).cellStrength = (fun x => if x = c then s else st.cellStrength x) := by
  obtain ⟨bc, cb, cs, tape, ev⟩ := st
  exact ⟨rfl, rfl, rfl⟩

/-- Unbinding a bel of the device preserves consistency. -/
theorem unbindBel_consistent {ctx : Context} {st : PState} {b : Nat} (hb : b ∈ ctx.bels)
    (h : ConsistentB ctx st = true) : ConsistentB ctx (unbindBel st b) = true := by
  rcases unbindBel_cases st b with ⟨_, heq⟩ | ⟨cn, hbc, hu1, hu2, hu3, _⟩
  · rw [heq]; exact h
  · have hcnb := consB_bel h hb hbc
    unfold ConsistentB
    rw [Bool.and_eq_true]
    constructor
    · rw [List.all_eq_true]
      intro b' hb'
      simp only [hu1, hu2]
      by_cases heq : b' = b
      · simp [heq]
      · simp only [if_neg heq]
        rcases hx : st.belCell b' with _ | c'
        · simp
        · have hc' := consB_bel h hb' hx
          by_cases hcc : c' = cn
          · exfalso
            apply heq
            rw [hcc] at hc'
            have h2 := hc'.1
            rw [hcnb.1] at h2
            exact (Option.some.inj h2).symm
          · simp [hx, if_neg hcc, hc'.1]
            exact hc'.2
    · rw [List.all_eq_true]
      intro cd hcd
      simp only [hu1, hu2]
      by_cases hcc : cd.name = cn
      · simp [hcc]
      · simp only [if_neg hcc]
        rcases hx : st.cellBel cd.name with _ | b'
        · simp
        · have hc' := consB_cell h hcd hx
          by_cases hbb : b' = b
          · exfalso
            apply hcc
            rw [hbb] at hc'
            have h2 := hc'.1
            rw [hbc] at h2
            exact (Option.some.inj h2).symm
          · simp [hx, if_neg hbb, hc'.1]
            exact hc'.2

/-- Binding a free cell of the netlist onto a free bel of the device
preserves consistency. -/
theorem bindBel_consistent {ctx : Context} {st : PState} {b c s : Nat}
    (h : ConsistentB ctx st = true) (hb : st.belCell b = none) (hc : st.cellBel c = none)
    (hcn : c ∈ cellNames ctx) (hbb : b ∈ ctx.bels) :
    ConsistentB ctx (bindBel st b c s) = true := by
  obtain ⟨hf1, hf2, _⟩ := bindBel_fields st b c s
  unfold ConsistentB
  rw [Bool.and_eq_true]
  constructor
  · rw [List.all_eq_true]
    intro b' hb'
    simp only [hf1, hf2]
    by_cases heq : b' = b
    · subst heq
      simp
      exact hcn
    · simp only [if_neg heq]
      rcases hx : st.belCell b' with _ | c'
      · simp
      · have hc' := consB_bel h hb' hx
        by_cases hcc : c' = c
        · exfalso
          rw [hcc] at hc'
          rw [hc] at hc'
          cases hc'.1
        · simp [hx, if_neg hcc, hc'.1]
          exact hc'.2
  · rw [List.all_eq_true]
    intro cd hcd
    simp only [hf1, hf2]
    by_cases hcc : cd.name = c
    · simp [hcc]
      exact hbb
    · simp only [if_neg hcc]
      rcases hx : st.cellBel cd.name with _ | b'
      · simp
      · have hc' := consB_cell h hcd hx
        by_cases hbb' : b' = b
        · exfalso
          rw [hbb'] at hc'
          rw [hb] at hc'
          cases hc'.1
        · simp [hx, if_neg hbb', hc'.1]
          exact hc'.2

/-- What the loop-top self-unbind does under consistency: it stays
consistent, leaves the cell unbound, and any event it logs is an unbind of
that very cell at its current strength. -/
theorem selfUnbind_spec (ctx : Context) (st : PState) (cname : Nat)
    (hcons : ConsistentB ctx st = true) (hmem : cname ∈ cellNames ctx) :
    ConsistentB ctx (selfUnbind st cname) = true ∧
    (selfUnbind st cname).cellBel cname = none ∧
    ((selfUnbind st cname).events = st.events ∨
      (selfUnbind st cname).events = st.events ++ [Ev.unbind cname (st.cellStrength cname)]) := by
  obtain ⟨cd, hcd, hname⟩ := List.mem_map.mp hmem
  obtain ⟨bc, cb, cs, tape, ev⟩ := st
  unfold selfUnbind
  rcases hcb : cb cname with _ | b
  · simp only [hcb]
    exact ⟨hcons, trivial, Or.inl trivial⟩
  · simp only [hcb]
    have h2 := consB_cell hcons hcd (show cb cd.name = some b by rw [hname]; exact hcb)
    have hbcn : bc b = some cname := by rw [← hname]; exact h2.1
    rcases unbindBel_cases ⟨bc, cb, cs, tape, ev⟩ b with ⟨hnone, _⟩ | ⟨cn, hbc2, hu1, hu2, hu3, hu4⟩
    · dsimp only at hnone
      rw [hbcn] at hnone
      cases hnone
    · have hcneq : cn = cname := by
        dsimp only at hbc2
        rw [hbcn] at hbc2
        exact (Option.some.inj hbc2).symm
      subst hcneq
      refine ⟨unbindBel_consistent h2.2 hcons, ?_, Or.inr ?_⟩
      · simp only [hu2]
        simp
      · rw [hu4]

/-- Under the precondition of `place_single_cell` — a consistent placement
and a target cell of the netlist whose strength is below LOCKED — the loop
never unbinds a bel whose bound cell has strength LOCKED: the self-unbind
hits the target cell itself, and ripup victims are below STRONG. -/
theorem placeLoop_unbind_below_locked (ctx : Context) :
    ∀ (iters : Nat) (cell : CellData) (rl : Bool) (st : PState),
      ConsistentB ctx st = true →
      cell.name ∈ cellNames ctx →
      st.cellStrength cell.name < STRENGTH_LOCKED →
      st.events.all (unbindBelow STRENGTH_LOCKED) = true →
      ((placeLoop ctx iters cell rl st).2.events.all (unbindBelow STRENGTH_LOCKED) = true) := by
  intro iters
  induction iters with
  | zero =>
      intro cell rl st hcons hmem hstr hev
      rw [placeLoop]
      have hae := addEvent_fields st (Ev.iterStart 0)
      have hpre_cons : ConsistentB ctx (addEvent st (Ev.iterStart 0)) = true := by
        rw [consB_congr hae.1 hae.2.1]
        exact hcons
      have hpre_ev :
          (addEvent st (Ev.iterStart 0)).events.all (unbindBelow STRENGTH_LOCKED) = true := by
        rw [hae.2.2.2]
        exact all_append_one hev rfl
      have hsu := selfUnbind_spec ctx (addEvent st (Ev.iterStart 0)) cell.name hpre_cons hmem
      have hst2_ev : (selfUnbind (addEvent st (Ev.iterStart 0)) cell.name).events.all
          (unbindBelow STRENGTH_LOCKED) = true := by
        rcases hsu.2.2 with he | he
        · rw [he]; exact hpre_ev
        · rw [he]
          refine all_append_one hpre_ev ?_
          have hlt : (addEvent st (Ev.iterStart 0)).cellStrength cell.name < STRENGTH_LOCKED := by
            rw [hae.2.2.1]; exact hstr
          simpa [unbindBelow] using hlt
      generalize hg : selfUnbind (addEvent st (Ev.iterStart 0)) cell.name = st2 at hst2_ev ⊢
      rcases hscan : scanBels ctx cell rl 0 st2 with ⟨⟨best, bw, rip, rw2⟩, st3⟩
      try simp only [hscan]
      have hev3 : st3.events.all (unbindBelow STRENGTH_LOCKED) = true := by
        have hh := scanBels_events_all (fun i _ => rfl) ctx cell rl 0 st2 hst2_ev
        rw [hscan] at hh
        exact hh
      cases best with
      | some bb => rw [bindBel_events]; exact hev3
      | none => exact hev3
  | succ i ih =>
      intro cell rl st hcons hmem hstr hev
      rw [placeLoop]
      have hae := addEvent_fields st (Ev.iterStart (i + 1))
      have hpre_cons : ConsistentB ctx (addEvent st (Ev.iterStart (i + 1))) = true := by
        rw [consB_congr hae.1 hae.2.1]
        exact hcons
      have hpre_ev : (addEvent st (Ev.iterStart (i + 1))).events.all
          (unbindBelow STRENGTH_LOCKED) = true := by
        rw [hae.2.2.2]
        exact all_append_one hev rfl
      have hsu := selfUnbind_spec ctx (addEvent st (Ev.iterStart (i + 1))) cell.name hpre_cons hmem
      have hst2_ev : (selfUnbind (addEvent st (Ev.iterStart (i + 1))) cell.name).events.all
          (unbindBelow STRENGTH_LOCKED) = true := by
        rcases hsu.2.2 with he | he
        · rw [he]; exact hpre_ev
        · rw [he]
          refine all_append_one hpre_ev ?_
          have hlt : (addEvent st (Ev.iterStart (i + 1))).cellStrength cell.name <
              STRENGTH_LOCKED := by
            rw [hae.2.2.1]; exact hstr
          simpa [unbindBelow] using hlt
      generalize hg : selfUnbind (addEvent st (Ev.iterStart (i + 1))) cell.name = st2
        at hsu hst2_ev ⊢
      obtain ⟨hst2_cons, hst2_cbnone, _⟩ := hsu
      rcases hscan : scanBels ctx cell rl (i + 1) st2 with ⟨⟨best, bw, rip, rw2⟩, st3⟩
      try simp only [hscan]
      have hinv := scanBels_inv ctx cell rl (i + 1) st2
      rw [hscan] at hinv
      obtain ⟨hi1, hi2, hi3, hi4, hi5⟩ := hinv
      dsimp only at hi1 hi2 hi3 hi4 hi5
      have hev3 : st3.events.all (unbindBelow STRENGTH_LOCKED) = true := by
        have hh := scanBels_events_all (fun i _ => rfl) ctx cell rl (i + 1) st2 hst2_ev
        rw [hscan] at hh
        exact hh
      cases best with
      | some bb => rw [bindBel_events]; exact hev3
      | none =>
          cases rip with
          | none => exact hev3
          | some pr =>
              obtain ⟨rb, rt⟩ := pr
              have hrt := hi4 rb rt rfl
              have hrc := consB_bel hst2_cons hrt.2.2 hrt.2.1
              obtain ⟨bc3, cb3, cs3, tape3, ev3⟩ := st3
              simp only at hev3 hi1 hi2 hi3
              have hcb3 : cb3 rt = some rb := by rw [hi2]; exact hrc.1
              simp only [hcb3]
              have hst4_cons : ConsistentB ctx
                  (⟨bc3, cb3, cs3, tape3, ev3 ++ [Ev.ripup rt (cs3 rt)]⟩ : PState) = true := by
                rw [consB_congr
                  (show (⟨bc3, cb3, cs3, tape3, ev3 ++ [Ev.ripup rt (cs3 rt)]⟩ : PState).belCell =
                    st2.belCell from hi1)
                  (show (⟨bc3, cb3, cs3, tape3, ev3 ++ [Ev.ripup rt (cs3 rt)]⟩ : PState).cellBel =
                    st2.cellBel from hi2)]
                exact hst2_cons
              have hbc4 : bc3 rb = some rt := by rw [hi1]; exact hrt.2.1
              rcases unbindBel_cases ⟨bc3, cb3, cs3, tape3, ev3 ++ [Ev.ripup rt (cs3 rt)]⟩ rb
                with ⟨hnone, _⟩ | ⟨cn, hbc2, hu1, hu2, hu3, hu4⟩
              · dsimp only at hnone
                rw [hbc4] at hnone
                cases hnone
              · have hcneq : cn = rt := by
                  dsimp only at hbc2
                  rw [hbc4] at hbc2
                  exact (Option.some.inj hbc2).symm
                rw [hcneq] at hu2 hu3 hu4
                have hev5 : (unbindBel ⟨bc3, cb3, cs3, tape3, ev3 ++ [Ev.ripup rt (cs3 rt)]⟩
                    rb).events.all (unbindBelow STRENGTH_LOCKED) = true := by
                  rw [hu4]
                  refine all_append_one ?_ ?_
                  · exact all_append_one hev3 rfl
                  · have hlt : cs3 rt < STRENGTH_LOCKED := by
                      rw [hi3]
                      have h2 := hrt.1
                      unfold STRENGTH_STRONG at h2
                      unfold STRENGTH_LOCKED
                      omega
                    simpa [unbindBelow] using hlt
                apply ih
                · apply bindBel_consistent
                  · exact unbindBel_consistent hrt.2.2 hst4_cons
                  · simp only [hu1]
                    simp
                  · simp only [hu2]
                    by_cases hcc : cell.name = rt
                    · simp [hcc]
                    · simp only [if_neg hcc]
                      show cb3 cell.name = none
                      rw [hi2]
                      exact hst2_cbnone
                  · exact hmem
                  · exact hrt.2.2
                · rw [getCell_name_of_mem hrc.2]
                  exact hrc.2
                · rw [getCell_name_of_mem hrc.2]
                  rw [bindBel_strength]
                  by_cases hq : rt = cell.name
                  · rw [if_pos hq]
                    decide
                  · rw [if_neg hq]
                    simp only [hu3]
                    simp [STRENGTH_NONE, STRENGTH_LOCKED]
                · rw [bindBel_events]
                  exact hev5

/-- Claim C6 (corrected): the metrics are pure and `place_single_cell`,
called on a cell of the netlist with strength below LOCKED in a consistent
placement, never unbinds a bel whose bound cell has strength LOCKED — but
`legalise_relative_constraints` does not share this guarantee: when a
ripped cell is later re-bound LOCKED by its own chain, the final
re-placement pass unbinds that LOCKED binding (see the counterexample). -/
theorem C6_amended :
    ∀ (ctx : Context) (cell : CellData) (rl : Bool) (st : PState),
      ConsistentB ctx st = true →
      cell.name ∈ cellNames ctx →
      st.cellStrength cell.name < STRENGTH_LOCKED →
      st.events.all (unbindBelow STRENGTH_LOCKED) = true →
      ((place_single_cell ctx cell rl st).2.events.all (unbindBelow STRENGTH_LOCKED) = true) := by
  intro ctx cell rl st h1 h2 h3 h4
  exact placeLoop_unbind_below_locked ctx 25 cell rl st h1 h2 h3 h4

/-- Witness for C6: placing cell 0 on the consistent swap world, every
unbind of the run hits a cell below LOCKED. -/
theorem C6_witness :
    (ConsistentB ctxSwap stSwap = true ∧ (getCell ctxSwap 0).name ∈ cellNames ctxSwap ∧
      stSwap.cellStrength (getCell ctxSwap 0).name < STRENGTH_LOCKED ∧
      stSwap.events.all (unbindBelow STRENGTH_LOCKED) = true) ∧
    ((place_single_cell ctxSwap (getCell ctxSwap 0) true stSwap).2.events.all
      (unbindBelow STRENGTH_LOCKED) = true) :=
  ⟨⟨by decide, by decide, by decide, rfl⟩,
   C6_amended ctxSwap (getCell ctxSwap 0) true stSwap (by decide) (by decide) (by decide) rfl⟩
